import Mathlib

/-!
The LRU cache engine of go-heap-cache.

A shallow embedding of `cache.go` and `lru.go`.

* The `container/list` queue is a `List` of elements, front first.  An element
  carries the address that identifies the `*list.Element` and its `Value`.
* The `items` map is an association list from key to element address.
* `time.Now().Unix()` is the parameter `now`, one reading per call; `int64`
  additions wrap (`wrapInt64`).
* Go ranges over a map in no fixed order; the loops of `GetAll` and
  `DeleteExpired` range over the association list, and their results are
  characterised independently of that order (`GetAll_spec`, `DeleteExpired_spec`).
* A call that would dereference a nil or dangling element pointer yields `none`.
-/

namespace Cache

/-! ## cache.go -/

def DEFAULT_CAPACITY : Int := 100

def DEFAULT_EXPIRE : Int := 1200

def NO_EXPIRE : Int := -1

def EVICTION_POLICY_LRU : Int := 1

/-- Go `int64` arithmetic: the result of an addition, reduced to 64 bits two's complement. -/
def wrapInt64 (x : Int) : Int := (x + 2 ^ 63) % 2 ^ 64 - 2 ^ 63

structure Config where
  Capacity : Int
  Expire : Int
  EvictionPolicy : Int
deriving DecidableEq, Repr

/-- Node represents an item in the cache. -/
structure Node (V : Type) where
  data : V
  expireAt : Int
  key : String
deriving DecidableEq, Repr

/-- A `*list.Element` of `container/list`: its address and its `Value`. -/
structure Element (V : Type) where
  addr : Nat
  Value : Node V
deriving DecidableEq, Repr

/-- A value of Go type `any` as the cache hands it out: either data supplied by
the caller, or a pointer to a queue element. -/
inductive AnyValue (V : Type) where
  | data (v : V)
  | element (e : Element V)
deriving DecidableEq, Repr

/-! ## Go maps keyed by string -/

/-- Map read `m[key]` with the comma-ok form. -/
def mapGet {β : Type} : List (String × β) → String → Option β
  | [], _ => none
  | (k, b) :: rest, key => if k = key then some b else mapGet rest key

/-- Map write `m[key] = b`. -/
def mapSet {β : Type} : List (String × β) → String → β → List (String × β)
  | [], key, b => [(key, b)]
  | (k, b0) :: rest, key, b =>
    if k = key then (key, b) :: rest else (k, b0) :: mapSet rest key b

/-- Map removal `delete(m, key)`. -/
def mapDelete {β : Type} (m : List (String × β)) (key : String) : List (String × β) :=
  m.filter (fun p => decide (p.1 ≠ key))

/-! ## container/list -/

/-- Front element of the list, `none` for nil. -/
def Front {V : Type} (q : List (Element V)) : Option (Element V) := q.head?

/-- Back element of the list, `none` for nil. -/
def Back {V : Type} (q : List (Element V)) : Option (Element V) := q.getLast?

/-- Insert a new element at the front. -/
def PushFront {V : Type} (q : List (Element V)) (e : Element V) : List (Element V) := e :: q

/-- Unlink the element with address `a`, if it is an element of the list. -/
def Remove {V : Type} (q : List (Element V)) (a : Nat) : List (Element V) :=
  q.filter (fun e => decide (e.addr ≠ a))

/-- The element behind the pointer `a`. -/
def elementAt {V : Type} (q : List (Element V)) (a : Nat) : Option (Element V) :=
  q.find? (fun e => decide (e.addr = a))

/-- Move the element with address `a` to the front, if it is an element of the list. -/
def MoveToFront {V : Type} (q : List (Element V)) (a : Nat) : List (Element V) :=
  match elementAt q a with
  | none => q
  | some e => e :: Remove q a

/-- Assignment `item.Value = node` through the pointer `a`. -/
def setValue {V : Type} (q : List (Element V)) (a : Nat) (node : Node V) : List (Element V) :=
  q.map (fun e => if e.addr = a then { e with Value := node } else e)

/-! ## lru.go -/

/-- LruCache represents a least-recently-used (LRU) cache.  `nextAddr` is the
address the next allocated element gets. -/
structure LruCache (V : Type) where
  queue : List (Element V)
  items : List (String × Nat)
  expire : Int
  capacity : Int
  nextAddr : Nat
deriving DecidableEq, Repr

/-- Creates a new cache instance; both branches of the policy switch build the same cache. -/
def New {V : Type} (conf : Config) : LruCache V :=
  if conf.EvictionPolicy = EVICTION_POLICY_LRU then
    { queue := [], items := [], capacity := conf.Capacity, expire := conf.Expire, nextAddr := 0 }
  else
    { queue := [], items := [], capacity := conf.Capacity, expire := conf.Expire, nextAddr := 0 }

/-- Retrieves a cached item by key and updates its position in the cache. -/
def Get {V : Type} (c : LruCache V) (key : String) (now : Int) :
    Option (LruCache V × Except String V) :=
  match mapGet c.items key with
  | some item =>
    match elementAt c.queue item with
    | none => none
    | some e =>
      let itemNode := e.Value
      if itemNode.expireAt = NO_EXPIRE ∨ itemNode.expireAt > now then
        some ({ c with queue := MoveToFront c.queue item }, Except.ok itemNode.data)
      else
        some (c, Except.error "heapCache :: Cache expired")
  | none => some (c, Except.error "heapCache :: Cache not found")

/-- Private helper for setting a cached item. -/
def set {V : Type} (c : LruCache V) (key : String) (value : V) (expireAt : Int) :
    Option (LruCache V) :=
  match mapGet c.items key with
  | none =>
    if c.capacity = (c.items.length : Int) then
      match Back c.queue with
      | none => none
      | some tailElement =>
        let queue := Remove c.queue tailElement.addr
        let items := mapDelete c.items tailElement.Value.key
        let node : Node V := { data := value, expireAt := expireAt, key := key }
        some { c with
          queue := PushFront queue ⟨c.nextAddr, node⟩
          items := mapSet items key c.nextAddr
          nextAddr := c.nextAddr + 1 }
    else
      let node : Node V := { data := value, expireAt := expireAt, key := key }
      some { c with
        queue := PushFront c.queue ⟨c.nextAddr, node⟩
        items := mapSet c.items key c.nextAddr
        nextAddr := c.nextAddr + 1 }
  | some item =>
    let node : Node V := { data := value, expireAt := expireAt, key := key }
    some { c with
      queue := MoveToFront (setValue c.queue item node) item
      items := mapSet c.items key item }

/-- Adds or updates a cached item with the given key and value. -/
def Set {V : Type} (c : LruCache V) (key : String) (value : V) (now : Int) :
    Option (LruCache V) :=
  let expireAt := if c.expire ≠ NO_EXPIRE then wrapInt64 (now + c.expire) else NO_EXPIRE
  set c key value expireAt

/-- Adds or updates a cached item with a custom expiration time given by the caller. -/
def SetWithExpire {V : Type} (c : LruCache V) (key : String) (value : V) (expiry : Int)
    (now : Int) : Option (LruCache V) :=
  let expireAt := if expiry ≠ NO_EXPIRE then wrapInt64 (now + expiry) else NO_EXPIRE
  set c key value expireAt

/-- The loop of `GetAll` over the entries of `items`. -/
def GetAll.loop {V : Type} (q : List (Element V)) (now : Int) :
    List (String × Nat) → List (String × AnyValue V) → Option (List (String × AnyValue V))
  | [], items => some items
  | (key, item) :: rest, items =>
    match elementAt q item with
    | none => none
    | some e =>
      let itemNode := e.Value
      if itemNode.expireAt = NO_EXPIRE ∨ itemNode.expireAt > now then
        GetAll.loop q now rest (mapSet items key (AnyValue.element e))
      else
        GetAll.loop q now rest items

/-- Returns a map of all non-expired items in the cache. -/
def GetAll {V : Type} (c : LruCache V) (now : Int) : Option (List (String × AnyValue V)) :=
  GetAll.loop c.queue now c.items []

/-- Returns the current count of items in the cache. -/
def Count {V : Type} (c : LruCache V) : Nat := c.items.length

/-- Removes the item with the given key; the result is the error, `none` for nil. -/
def Delete {V : Type} (c : LruCache V) (key : String) : LruCache V × Option String :=
  match mapGet c.items key with
  | some item =>
    ({ c with queue := Remove c.queue item, items := mapDelete c.items key }, none)
  | none => (c, some "heapCache :: Cache not found")

/-- The loop of `DeleteExpired` over the entries of `items`. -/
def DeleteExpired.loop {V : Type} (now : Int) :
    List (String × Nat) → LruCache V → Nat → Option (LruCache V × Nat)
  | [], c, deletedItemsCount => some (c, deletedItemsCount)
  | (key, item) :: rest, c, deletedItemsCount =>
    match elementAt c.queue item with
    | none => none
    | some e =>
      let itemNode := e.Value
      if itemNode.expireAt ≠ NO_EXPIRE ∧ itemNode.expireAt < now then
        DeleteExpired.loop now rest
          { c with queue := Remove c.queue item, items := mapDelete c.items key }
          (deletedItemsCount + 1)
      else
        DeleteExpired.loop now rest c deletedItemsCount

/-- Removes expired items from the cache and returns a status message. -/
def DeleteExpired {V : Type} (c : LruCache V) (now : Int) :
    Option (LruCache V × Except String String) :=
  if c.items.length = 0 then
    some (c, Except.error "heapCache :: No items available")
  else
    match DeleteExpired.loop now c.items c 0 with
    | none => none
    | some (c1, deletedItemsCount) =>
      if deletedItemsCount > 0 then
        some (c1, Except.ok
          ("heapCache :: " ++ toString deletedItemsCount ++ " item(s) are deleted"))
      else
        some (c1, Except.error "heapCache :: No expired items are found")

/-- Node at the front of the queue. -/
def headNode {V : Type} (c : LruCache V) : Except String (Node V) :=
  match Front c.queue with
  | none => Except.error "heapCache :: head node is not available"
  | some headElement => Except.ok headElement.Value

/-- Node at the back of the queue. -/
def tailNode {V : Type} (c : LruCache V) : Except String (Node V) :=
  match Back c.queue with
  | none => Except.error "heapCache :: tail node is not available"
  | some tailElement => Except.ok tailElement.Value

/-! ## Views and the consistency invariant -/

/-- Contents of the Ordered Index, front first. -/
def entries {V : Type} (c : LruCache V) : List (Node V) := c.queue.map Element.Value

/-- The key and address under which the Hash Index holds a queue element. -/
def pairOf {V : Type} (e : Element V) : String × Nat := (e.Value.key, e.addr)

/-- Both indices hold the same elements, keys and addresses are unique, and
addresses still to be allocated are unused. -/
structure WF {V : Type} (c : LruCache V) : Prop where
  perm : c.items.Perm (c.queue.map pairOf)
  keys : (c.items.map Prod.fst).Nodup
  addrs : (c.queue.map Element.addr).Nodup
  fresh : ∀ e ∈ c.queue, e.addr < c.nextAddr

/-- The node the Hash Index leads to for `key`, if the key is stored. -/
def stored {V : Type} (c : LruCache V) (key : String) : Option (Node V) :=
  match mapGet c.items key with
  | none => none
  | some item => (elementAt c.queue item).map Element.Value

/-! ## Sequences of public calls -/

/-- A call of the public contract, with the clock reading it observes. -/
inductive Call (V : Type) where
  | Get (key : String) (now : Int)
  | Set (key : String) (value : V) (now : Int)
  | SetWithExpire (key : String) (value : V) (expiry : Int) (now : Int)
  | GetAll (now : Int)
  | Count
  | Delete (key : String)
  | DeleteExpired (now : Int)
deriving DecidableEq, Repr

/-- State of the cache after one call; `none` when the call faults. -/
def step {V : Type} (c : LruCache V) : Call V → Option (LruCache V)
  | Call.Get key now => (Get c key now).map Prod.fst
  | Call.Set key value now => Set c key value now
  | Call.SetWithExpire key value expiry now => SetWithExpire c key value expiry now
  | Call.GetAll now => (GetAll c now).map (fun _ => c)
  | Call.Count => some c
  | Call.Delete key => some (Delete c key).1
  | Call.DeleteExpired now => (DeleteExpired c now).map Prod.fst

/-- State of the cache after a sequence of calls, in order. -/
def run {V : Type} (c : LruCache V) : List (Call V) → Option (LruCache V)
  | [] => some c
  | call :: rest => (step c call).bind (fun c1 => run c1 rest)

/-- The value a call writes for `key`, if the call is a `Set` or `SetWithExpire` of that key. -/
def written {V : Type} (call : Call V) (key : String) : Option V :=
  match call with
  | Call.Set k value _ => if k = key then some value else none
  | Call.SetWithExpire k value _ _ => if k = key then some value else none
  | _ => none

/-- The value most recently written for `key` by a `Set` or `SetWithExpire` of the sequence. -/
def lastStored {V : Type} : List (Call V) → String → Option V
  | [], _ => none
  | call :: rest, key =>
    match lastStored rest key with
    | some v => some v
    | none => written call key

/-! ## Last touch of a key -/

/-- The key a call touches in state `c`: the key of a `Set` or `SetWithExpire`, or the
key of a `Get` that succeeds. -/
def touched {V : Type} (c : LruCache V) : Call V → Option String
  | Call.Set key _ _ => some key
  | Call.SetWithExpire key _ _ _ => some key
  | Call.Get key now =>
    match Get c key now with
    | some (_, Except.ok _) => some key
    | _ => none
  | _ => none

/-- Record that the call number `i` touched a key: `lastTouch` maps a key to the number
of the last call that touched it. -/
def touchStep {V : Type} (c : LruCache V) (call : Call V) (i : Nat)
    (lastTouch : String → Option Nat) : String → Option Nat :=
  match touched c call with
  | some key => fun j => if j = key then some i else lastTouch j
  | none => lastTouch

/-- Run a sequence of calls, numbering them from `i`, and keep for each key the
number of the last call that touched it. -/
def runTouch {V : Type} (c : LruCache V) (i : Nat) (lastTouch : String → Option Nat) :
    List (Call V) → Option (LruCache V × (String → Option Nat))
  | [] => some (c, lastTouch)
  | call :: rest =>
    match step c call with
    | none => none
    | some c1 => runTouch c1 (i + 1) (touchStep c call i lastTouch) rest

/-! ## Locking -/

/-- The two ways a method takes `mu`, the `sync.RWMutex` of the cache: `RLock` is the
shared (read) lock, `Lock` the exclusive (write) lock. -/
inductive LockMode where
  | RLock
  | Lock
deriving DecidableEq, Repr

/-- The methods of `LruCache` that take the lock (`Set` and `SetWithExpire` take it
inside `set`). -/
inductive Method where
  | Get
  | GetAll
  | Count
  | Delete
  | DeleteExpired
  | set
deriving DecidableEq, Repr

/-- The lock each method acquires on entry and holds until it returns: `c.mu.RLock()`
in `Get`, `GetAll` and `Count`, `c.mu.Lock()` in `Delete`, `DeleteExpired` and `set`. -/
def lockOf : Method → LockMode
  | Method.Get => LockMode.RLock
  | Method.GetAll => LockMode.RLock
  | Method.Count => LockMode.RLock
  | Method.Delete => LockMode.Lock
  | Method.DeleteExpired => LockMode.Lock
  | Method.set => LockMode.Lock

/-! ## Sample states -/

/-- A full cache of capacity 2: `b` at the front, `a` (expiry 5) at the back. -/
def fullCache : LruCache Nat :=
  { queue := [⟨1, ⟨20, -1, "b"⟩⟩, ⟨0, ⟨10, 5, "a"⟩⟩]
    items := [("a", 0), ("b", 1)]
    expire := -1
    capacity := 2
    nextAddr := 2 }

/-- The seven writes of the scenario `key1 .. key7`, each with its value and clock reading. -/
def sevenKeys : List (String × String × Int) :=
  [("key1", "value1", 0), ("key2", "value2", 0), ("key3", "value3", 0),
    ("key4", "value4", 0), ("key5", "value5", 0), ("key6", "value6", 0),
    ("key7", "value7", 0)]

/-! ## Lemmas on maps -/

section maps
variable {β : Type}

theorem mapGet_eq_none_iff (m : List (String × β)) (k : String) :
    mapGet m k = none ↔ k ∉ m.map Prod.fst := by
  induction m with
  | nil => simp [mapGet]
  | cons p rest ih =>
    obtain ⟨k0, b0⟩ := p
    by_cases h : k0 = k
    · simp [mapGet, h]
    · simp [mapGet, h, ih, Ne.symm h]

theorem mem_of_mapGet (m : List (String × β)) (k : String) (b : β)
    (h : mapGet m k = some b) : (k, b) ∈ m := by
  induction m with
  | nil => simp [mapGet] at h
  | cons p rest ih =>
    obtain ⟨k0, b0⟩ := p
    by_cases hk : k0 = k
    · simp [mapGet, hk] at h
      simp [hk, h]
    · simp [mapGet, hk] at h
      exact List.mem_cons_of_mem _ (ih h)

theorem mapGet_of_mem (m : List (String × β)) (k : String) (b : β)
    (hn : (m.map Prod.fst).Nodup) (h : (k, b) ∈ m) : mapGet m k = some b := by
  induction m with
  | nil => simp at h
  | cons p rest ih =>
    obtain ⟨k0, b0⟩ := p
    simp only [List.map_cons, List.nodup_cons] at hn
    rcases List.mem_cons.1 h with h1 | h1
    · cases h1
      simp [mapGet]
    · have hk : k0 ≠ k := by
        rintro rfl
        exact hn.1 (List.mem_map_of_mem Prod.fst h1)
      simp [mapGet, hk, ih hn.2 h1]

theorem mapSet_of_none (m : List (String × β)) (k : String) (b : β)
    (h : mapGet m k = none) : mapSet m k b = m ++ [(k, b)] := by
  induction m with
  | nil => simp [mapSet]
  | cons p rest ih =>
    obtain ⟨k0, b0⟩ := p
    by_cases hk : k0 = k
    · simp [mapGet, hk] at h
    · simp [mapGet, hk] at h
      simp [mapSet, hk, ih h]

theorem mapSet_of_some (m : List (String × β)) (k : String) (b : β)
    (h : mapGet m k = some b) : mapSet m k b = m := by
  induction m with
  | nil => simp [mapGet] at h
  | cons p rest ih =>
    obtain ⟨k0, b0⟩ := p
    by_cases hk : k0 = k
    · simp [mapGet, hk] at h
      simp [mapSet, hk, h]
    · simp [mapGet, hk] at h
      simp [mapSet, hk, ih h]

theorem mapGet_mapDelete (m : List (String × β)) (k j : String) :
    mapGet (mapDelete m k) j = if j = k then none else mapGet m j := by
  induction m with
  | nil => simp [mapGet, mapDelete]
  | cons p rest ih =>
    obtain ⟨k0, b0⟩ := p
    unfold mapDelete at ih ⊢
    by_cases hk : k0 = k
    · subst hk
      by_cases hj : j = k0
      · simp [hj] at ih ⊢
        exact ih
      · simp [hj, mapGet, Ne.symm hj] at ih ⊢
        exact ih
    · by_cases hj : j = k
      · subst hj
        simp [hk, mapGet] at ih ⊢
        exact ih
      · simp [hk, hj, mapGet] at ih ⊢
        rw [ih]

theorem mapGet_append_singleton (m : List (String × β)) (k j : String) (b : β) :
    mapGet (m ++ [(k, b)]) j = match mapGet m j with
      | some x => some x
      | none => if k = j then some b else none := by
  induction m with
  | nil => simp [mapGet]
  | cons p rest ih =>
    obtain ⟨k0, b0⟩ := p
    by_cases hk : k0 = j
    · simp [mapGet, hk]
    · simp [mapGet, hk, ih]

end maps

/-! ## Lemmas on the queue -/

section queue
variable {V : Type}

theorem elementAt_some (q : List (Element V)) (a : Nat) (e : Element V)
    (h : elementAt q a = some e) : e ∈ q ∧ e.addr = a := by
  unfold elementAt at h
  refine ⟨List.mem_of_find?_eq_some h, ?_⟩
  have := List.find?_some h
  simpa using this

theorem elementAt_of_mem (q : List (Element V)) (e : Element V)
    (hn : (q.map Element.addr).Nodup) (h : e ∈ q) : elementAt q e.addr = some e := by
  induction q with
  | nil => simp at h
  | cons x rest ih =>
    simp only [List.map_cons, List.nodup_cons] at hn
    rcases List.mem_cons.1 h with h1 | h1
    · subst h1
      simp [elementAt]
    · have hx : x.addr ≠ e.addr := by
        intro hx
        exact hn.1 (hx ▸ List.mem_map_of_mem Element.addr h1)
      have := ih hn.2 h1
      unfold elementAt at this ⊢
      simp [List.find?_cons, hx, this]

theorem elementAt_none (q : List (Element V)) (a : Nat)
    (h : elementAt q a = none) : a ∉ q.map Element.addr := by
  unfold elementAt at h
  simp only [List.find?_eq_none, decide_eq_true_eq] at h
  simp only [List.mem_map, not_exists, not_and]
  exact fun e he => h e he

theorem Remove_of_not_mem (q : List (Element V)) (a : Nat)
    (h : a ∉ q.map Element.addr) : Remove q a = q := by
  unfold Remove
  rw [List.filter_eq_self]
  intro e he
  simp only [ne_eq, decide_not, Bool.not_eq_eq_eq_not, Bool.not_true, decide_eq_false_iff_not]
  rintro rfl
  exact h (List.mem_map_of_mem Element.addr he)

theorem Remove_append (q1 q2 : List (Element V)) (a : Nat) :
    Remove (q1 ++ q2) a = Remove q1 a ++ Remove q2 a := by
  simp [Remove]

theorem Remove_cons (x : Element V) (q : List (Element V)) (a : Nat) :
    Remove (x :: q) a = if x.addr = a then Remove q a else x :: Remove q a := by
  by_cases h : x.addr = a <;> simp [Remove, List.filter_cons, h]

theorem Remove_append_singleton (q : List (Element V)) (t : Element V)
    (hn : ((q ++ [t]).map Element.addr).Nodup) : Remove (q ++ [t]) t.addr = q := by
  have h1 : t.addr ∉ q.map Element.addr := by
    rw [List.map_append, List.nodup_append] at hn
    intro hm
    exact hn.2.2 hm (by simp)
  rw [Remove_append, Remove_of_not_mem q t.addr h1, Remove_cons]
  simp [Remove]

theorem Back_eq_some (q : List (Element V)) (t : Element V)
    (h : Back q = some t) : q = q.dropLast ++ [t] := by
  unfold Back at h
  have hne : q ≠ [] := by
    rintro rfl
    simp at h
  rw [List.getLast?_eq_getLast _ hne] at h
  have := List.dropLast_append_getLast hne
  simp only [Option.some.injEq] at h
  rw [h] at this
  exact this.symm

theorem Remove_Back (q : List (Element V)) (t : Element V)
    (hn : (q.map Element.addr).Nodup) (h : Back q = some t) :
    Remove q t.addr = q.dropLast := by
  have hq := Back_eq_some q t h
  have : Remove (q.dropLast ++ [t]) t.addr = q.dropLast :=
    Remove_append_singleton _ _ (hq ▸ hn)
  rw [← hq] at this
  exact this

theorem perm_cons_Remove (q : List (Element V)) (e : Element V)
    (hn : (q.map Element.addr).Nodup) (h : e ∈ q) :
    (e :: Remove q e.addr).Perm q := by
  induction q with
  | nil => simp at h
  | cons x rest ih =>
    simp only [List.map_cons, List.nodup_cons] at hn
    rcases List.mem_cons.1 h with h1 | h1
    · subst h1
      rw [Remove_cons, Remove_of_not_mem rest e.addr hn.1]
      simp
    · have hx : x.addr ≠ e.addr := by
        intro hx
        exact hn.1 (hx ▸ List.mem_map_of_mem Element.addr h1)
      have h2 := ih hn.2 h1
      rw [Remove_cons, if_neg hx]
      exact (List.Perm.swap x e _).trans (h2.cons x)

theorem MoveToFront_perm (q : List (Element V)) (a : Nat)
    (hn : (q.map Element.addr).Nodup) : (MoveToFront q a).Perm q := by
  unfold MoveToFront
  cases h : elementAt q a with
  | none => exact List.Perm.refl _
  | some e =>
    obtain ⟨hm, ha⟩ := elementAt_some q a e h
    subst ha
    exact perm_cons_Remove q e hn hm

theorem MoveToFront_of_elementAt (q : List (Element V)) (a : Nat) (e : Element V)
    (h : elementAt q a = some e) : MoveToFront q a = e :: Remove q a := by
  simp [MoveToFront, h]

end queue

/-! ## The consistency invariant -/

section wf
variable {V : Type}

theorem WF.length_eq {c : LruCache V} (h : WF c) : c.items.length = c.queue.length := by
  have := h.perm.length_eq
  simpa using this

theorem WF.queue_keys {c : LruCache V} (h : WF c) :
    (c.queue.map (fun e => e.Value.key)).Nodup := by
  have h1 : (c.items.map Prod.fst).Perm ((c.queue.map pairOf).map Prod.fst) := h.perm.map _
  have h2 := h1.nodup_iff.1 h.keys
  simpa [List.map_map, Function.comp_def, pairOf] using h2

theorem WF.mem_items {c : LruCache V} (h : WF c) (e : Element V) (he : e ∈ c.queue) :
    mapGet c.items e.Value.key = some e.addr := by
  apply mapGet_of_mem _ _ _ h.keys
  exact h.perm.mem_iff.2 (List.mem_map_of_mem pairOf he)

theorem WF.lookup {c : LruCache V} (h : WF c) (k : String) (a : Nat)
    (hk : mapGet c.items k = some a) :
    ∃ e, elementAt c.queue a = some e ∧ e ∈ c.queue ∧ e.Value.key = k ∧ e.addr = a := by
  have h1 := h.perm.mem_iff.1 (mem_of_mapGet _ _ _ hk)
  obtain ⟨e, he, hp⟩ := List.mem_map.1 h1
  simp only [pairOf, Prod.mk.injEq] at hp
  refine ⟨e, ?_, he, hp.1, hp.2⟩
  rw [← hp.2]
  exact elementAt_of_mem _ _ h.addrs he

theorem WF.not_stored {c : LruCache V} (h : WF c) (k : String) :
    mapGet c.items k = none ↔ ∀ e ∈ c.queue, e.Value.key ≠ k := by
  constructor
  · intro hk e he hek
    have := h.mem_items e he
    rw [hek, hk] at this
    exact Option.noConfusion this
  · intro hq
    cases hk : mapGet c.items k with
    | none => rfl
    | some a =>
      obtain ⟨e, _, he, hek, _⟩ := h.lookup k a hk
      exact absurd hek (hq e he)

theorem WF.key_addr {c : LruCache V} (h : WF c) (e e0 : Element V) (he : e ∈ c.queue)
    (he0 : e0 ∈ c.queue) : e.Value.key = e0.Value.key ↔ e.addr = e0.addr := by
  constructor
  · intro hk
    have h1 := h.mem_items e he
    have h2 := h.mem_items e0 he0
    rw [hk, h2] at h1
    exact (Option.some.inj h1).symm
  · intro ha
    have h1 := elementAt_of_mem _ _ h.addrs he
    have h2 := elementAt_of_mem _ _ h.addrs he0
    rw [ha, h2] at h1
    rw [Option.some.inj h1]

theorem WF.Remove_eq_filter {c : LruCache V} (h : WF c) (e : Element V) (he : e ∈ c.queue) :
    Remove c.queue e.addr = c.queue.filter (fun x => decide (x.Value.key ≠ e.Value.key)) := by
  unfold Remove
  apply List.filter_congr
  intro x hx
  have := h.key_addr x e hx he
  simp [this]

theorem WF_New (conf : Config) : WF (New conf : LruCache V) := by
  unfold New
  split <;> exact ⟨by simp, by simp, by simp, by simp⟩

theorem WF.moveToFront {c : LruCache V} (h : WF c) (a : Nat) :
    WF { c with queue := MoveToFront c.queue a } := by
  have hp := MoveToFront_perm c.queue a h.addrs
  refine ⟨?_, h.keys, ?_, ?_⟩
  · exact h.perm.trans (hp.map pairOf).symm
  · exact (hp.map Element.addr).nodup_iff.2 h.addrs
  · intro e he
    exact h.fresh e (hp.mem_iff.1 he)

theorem WF.remove {c : LruCache V} (h : WF c) (e : Element V) (he : e ∈ c.queue) :
    WF { c with queue := Remove c.queue e.addr, items := mapDelete c.items e.Value.key } := by
  refine ⟨?_, ?_, ?_, ?_⟩
  · show (mapDelete c.items e.Value.key).Perm ((Remove c.queue e.addr).map pairOf)
    rw [h.Remove_eq_filter e he]
    unfold mapDelete
    have h1 := h.perm.filter (fun p => decide (p.1 ≠ e.Value.key))
    rw [List.filter_map] at h1
    exact h1
  · show ((mapDelete c.items e.Value.key).map Prod.fst).Nodup
    exact h.keys.sublist ((List.filter_sublist _).map _)
  · show ((Remove c.queue e.addr).map Element.addr).Nodup
    exact h.addrs.sublist ((List.filter_sublist _).map _)
  · intro x hx
    exact h.fresh x (List.mem_of_mem_filter hx)

theorem WF.push {c : LruCache V} (h : WF c) (node : Node V)
    (hk : mapGet c.items node.key = none) :
    WF { c with
      queue := PushFront c.queue ⟨c.nextAddr, node⟩
      items := mapSet c.items node.key c.nextAddr
      nextAddr := c.nextAddr + 1 } := by
  refine ⟨?_, ?_, ?_, ?_⟩
  · show (mapSet c.items node.key c.nextAddr).Perm
      ((PushFront c.queue ⟨c.nextAddr, node⟩).map pairOf)
    rw [mapSet_of_none _ _ _ hk]
    simp only [PushFront, List.map_cons, pairOf]
    exact List.perm_append_singleton _ _ |>.trans (h.perm.cons _)
  · show ((mapSet c.items node.key c.nextAddr).map Prod.fst).Nodup
    rw [mapSet_of_none _ _ _ hk, List.map_append, List.nodup_append]
    refine ⟨h.keys, by simp, ?_⟩
    intro k hk1 hk2
    simp only [List.map_cons, List.map_nil, List.mem_singleton] at hk2
    subst hk2
    exact (mapGet_eq_none_iff _ _).1 hk hk1
  · show ((PushFront c.queue ⟨c.nextAddr, node⟩).map Element.addr).Nodup
    simp only [PushFront, List.map_cons, List.nodup_cons]
    refine ⟨?_, h.addrs⟩
    intro hm
    obtain ⟨e, he, hea⟩ := List.mem_map.1 hm
    have := h.fresh e he
    omega
  · intro x hx
    show x.addr < c.nextAddr + 1
    rcases List.mem_cons.1 hx with h1 | h1
    · subst h1
      simp
    · exact Nat.lt_succ_of_lt (h.fresh x h1)

end wf

section upd
variable {V : Type}

theorem Remove_setValue (q : List (Element V)) (a : Nat) (node : Node V) :
    Remove (setValue q a node) a = Remove q a := by
  induction q with
  | nil => rfl
  | cons x rest ih =>
    have h0 : setValue (x :: rest) a node =
        (if x.addr = a then { x with Value := node } else x) :: setValue rest a node := rfl
    rw [h0, Remove_cons, Remove_cons, ih]
    by_cases hx : x.addr = a <;> simp [hx]

theorem elementAt_setValue (q : List (Element V)) (a : Nat) (node : Node V) (e : Element V)
    (h : elementAt q a = some e) : elementAt (setValue q a node) a = some ⟨a, node⟩ := by
  induction q with
  | nil => simp [elementAt] at h
  | cons x rest ih =>
    have h0 : setValue (x :: rest) a node =
        (if x.addr = a then { x with Value := node } else x) :: setValue rest a node := rfl
    rw [h0]
    unfold elementAt at h ih ⊢
    by_cases hx : x.addr = a
    · simp [List.find?_cons, hx]
    · simp only [List.find?_cons, hx, decide_False] at h
      simp only [hx, if_false, List.find?_cons, decide_False]
      exact ih h

theorem MoveToFront_setValue (q : List (Element V)) (a : Nat) (node : Node V) (e : Element V)
    (h : elementAt q a = some e) :
    MoveToFront (setValue q a node) a = ⟨a, node⟩ :: Remove q a := by
  rw [MoveToFront_of_elementAt _ _ _ (elementAt_setValue q a node e h), Remove_setValue]

theorem WF.update {c : LruCache V} (h : WF c) (node : Node V) (a : Nat)
    (hk : mapGet c.items node.key = some a) :
    WF { c with
      queue := MoveToFront (setValue c.queue a node) a
      items := mapSet c.items node.key a } := by
  obtain ⟨e, hat, he, hek, hea⟩ := h.lookup _ _ hk
  have hp := perm_cons_Remove c.queue e h.addrs he
  rw [hea] at hp
  refine ⟨?_, ?_, ?_, ?_⟩
  · show (mapSet c.items node.key a).Perm
      ((MoveToFront (setValue c.queue a node) a).map pairOf)
    rw [mapSet_of_some _ _ _ hk, MoveToFront_setValue _ _ _ _ hat]
    have h1 := h.perm.trans (hp.map pairOf).symm
    simpa [pairOf, hek, hea] using h1
  · show ((mapSet c.items node.key a).map Prod.fst).Nodup
    rw [mapSet_of_some _ _ _ hk]
    exact h.keys
  · show ((MoveToFront (setValue c.queue a node) a).map Element.addr).Nodup
    rw [MoveToFront_setValue _ _ _ _ hat]
    have h1 := (hp.map Element.addr).nodup_iff.2 h.addrs
    simpa [hea] using h1
  · intro x hx
    show x.addr < c.nextAddr
    rw [MoveToFront_setValue _ _ _ _ hat] at hx
    rcases List.mem_cons.1 hx with h1 | h1
    · subst h1
      exact hea ▸ h.fresh e he
    · exact h.fresh x (List.mem_of_mem_filter h1)

theorem WF.entries_Remove {c : LruCache V} (h : WF c) (e : Element V) (he : e ∈ c.queue) :
    (Remove c.queue e.addr).map Element.Value =
      (entries c).filter (fun n => decide (n.key ≠ e.Value.key)) := by
  rw [h.Remove_eq_filter e he, entries, List.filter_map]
  rfl

theorem WF.entries_Back {c : LruCache V} (h : WF c) (t : Element V) (ht : Back c.queue = some t) :
    (Remove c.queue t.addr).map Element.Value = (entries c).dropLast ∧
      entries c = (entries c).dropLast ++ [t.Value] := by
  have h1 := Remove_Back c.queue t h.addrs ht
  have h2 := Back_eq_some c.queue t ht
  have h3 : (entries c).dropLast = c.queue.dropLast.map Element.Value := by
    simp [entries, List.map_dropLast]
  constructor
  · rw [h1, h3]
  · rw [h3]
    conv_lhs => rw [entries, h2]
    simp

end upd

/-! ## The three branches of `set` -/

section setlemmas
variable {V : Type}

theorem WF.stored_eq_some {c : LruCache V} (h : WF c) (k : String) (n : Node V) :
    stored c k = some n ↔ n ∈ entries c ∧ n.key = k := by
  unfold stored
  constructor
  · intro hs
    cases hk : mapGet c.items k with
    | none => simp [hk] at hs
    | some a =>
      obtain ⟨e, hat, he, hek, _⟩ := h.lookup k a hk
      simp only [hk, hat, Option.map_some', Option.some.injEq] at hs
      subst hs
      exact ⟨List.mem_map_of_mem _ he, hek⟩
  · rintro ⟨hn, hnk⟩
    obtain ⟨e, he, hev⟩ := List.mem_map.1 hn
    have h1 := h.mem_items e he
    rw [hev, hnk] at h1
    simp [h1, elementAt_of_mem _ _ h.addrs he, hev]

theorem WF.stored_eq_none {c : LruCache V} (h : WF c) (k : String) :
    stored c k = none ↔ mapGet c.items k = none := by
  unfold stored
  cases hk : mapGet c.items k with
  | none => simp
  | some a =>
    obtain ⟨e, hat, _⟩ := h.lookup k a hk
    simp [hat]

theorem WF.not_stored_entries {c : LruCache V} (h : WF c) (k : String) :
    mapGet c.items k = none ↔ ∀ n ∈ entries c, n.key ≠ k := by
  rw [h.not_stored]
  simp [entries]

theorem WF.entries_keys {c : LruCache V} (h : WF c) :
    ((entries c).map Node.key).Nodup := by
  have := h.queue_keys
  simpa [entries, List.map_map, Function.comp_def] using this

theorem set_insert {c : LruCache V} (h : WF c) (k : String) (v : V) (x : Int)
    (hk : mapGet c.items k = none) (hc : c.capacity ≠ (c.items.length : Int)) :
    ∃ c1, set c k v x = some c1 ∧ WF c1 ∧ entries c1 = ⟨v, x, k⟩ :: entries c ∧
      c1.items.length = c.items.length + 1 ∧ c1.capacity = c.capacity ∧
      c1.expire = c.expire := by
  refine ⟨_, ?_, h.push ⟨v, x, k⟩ hk, ?_, ?_, rfl, rfl⟩
  · simp [set, hk, hc]
  · simp [entries, PushFront]
  · show (mapSet c.items k c.nextAddr).length = _
    rw [mapSet_of_none _ _ _ hk]
    simp

theorem set_evict {c : LruCache V} (h : WF c) (k : String) (v : V) (x : Int)
    (hk : mapGet c.items k = none) (hc : c.capacity = (c.items.length : Int))
    (hpos : 1 ≤ c.capacity) :
    ∃ c1 t, set c k v x = some c1 ∧ tailNode c = Except.ok t ∧ WF c1 ∧
      entries c = (entries c).dropLast ++ [t] ∧
      entries c1 = ⟨v, x, k⟩ :: (entries c).dropLast ∧
      c1.items.length = c.items.length ∧ c1.capacity = c.capacity ∧
      c1.expire = c.expire := by
  have hlen := h.length_eq
  cases hb : Back c.queue with
  | none =>
    unfold Back at hb
    rw [List.getLast?_eq_none_iff] at hb
    rw [hb] at hlen
    simp only [List.length_nil] at hlen
    rw [hlen] at hc
    omega
  | some t =>
    have hq := Back_eq_some c.queue t hb
    have ht : t ∈ c.queue := by
      rw [hq]
      simp
    have hw1 := h.remove t ht
    have hk1 : mapGet (mapDelete c.items t.Value.key) k = none := by
      rw [mapGet_mapDelete, hk]
      simp
    have hw2 := hw1.push ⟨v, x, k⟩ hk1
    obtain ⟨he1, he2⟩ := h.entries_Back t hb
    refine ⟨_, t.Value, ?_, ?_, hw2, he2, ?_, ?_, rfl, rfl⟩
    · simp [set, hk, hc, hb]
    · simp [tailNode, hb]
    · simp only [entries, PushFront, List.map_cons]
      rw [he1]
      rfl
    · have h3 := hw2.length_eq
      simp only [PushFront, List.length_cons] at h3
      rw [h3, Remove_Back c.queue t h.addrs hb, List.length_dropLast, hlen]
      have : 0 < c.queue.length := List.length_pos_of_mem ht
      omega

theorem set_update {c : LruCache V} (h : WF c) (k : String) (v : V) (x : Int) (a : Nat)
    (hk : mapGet c.items k = some a) :
    ∃ c1, set c k v x = some c1 ∧ WF c1 ∧
      entries c1 = ⟨v, x, k⟩ :: (entries c).filter (fun n => decide (n.key ≠ k)) ∧
      c1.items = c.items ∧ c1.capacity = c.capacity ∧ c1.expire = c.expire := by
  obtain ⟨e, hat, he, hek, hea⟩ := h.lookup _ _ hk
  refine ⟨_, ?_, h.update ⟨v, x, k⟩ a hk, ?_, ?_, rfl, rfl⟩
  · simp [set, hk]
  · simp only [entries]
    rw [MoveToFront_setValue _ _ _ _ hat, List.map_cons, ← hea, h.entries_Remove e he, hek]
    rfl
  · exact mapSet_of_some _ _ _ hk

end setlemmas

/-! ## `Get` and `Delete` -/

section getdel
variable {V : Type}

theorem Get_absent (c : LruCache V) (k : String) (now : Int)
    (hk : mapGet c.items k = none) :
    Get c k now = some (c, Except.error "heapCache :: Cache not found") := by
  simp [Get, hk]

theorem Get_elapsed {c : LruCache V} (h : WF c) (k : String) (now : Int) (n : Node V)
    (hs : stored c k = some n) (h1 : n.expireAt ≠ NO_EXPIRE) (h2 : n.expireAt ≤ now) :
    Get c k now = some (c, Except.error "heapCache :: Cache expired") := by
  unfold stored at hs
  cases hk : mapGet c.items k with
  | none => simp [hk] at hs
  | some a =>
    obtain ⟨e, hat, he, hek, hea⟩ := h.lookup k a hk
    simp only [hk, hat, Option.map_some', Option.some.injEq] at hs
    subst hs
    have h3 : ¬ (e.Value.expireAt > now) := not_lt.2 h2
    simp [Get, hk, hat, h1, h3]

theorem Get_live {c : LruCache V} (h : WF c) (k : String) (now : Int) (n : Node V)
    (hs : stored c k = some n) (h1 : n.expireAt = NO_EXPIRE ∨ n.expireAt > now) :
    ∃ c1, Get c k now = some (c1, Except.ok n.data) ∧ WF c1 ∧
      entries c1 = n :: (entries c).filter (fun m => decide (m.key ≠ k)) ∧
      c1.items = c.items ∧ c1.capacity = c.capacity ∧ c1.expire = c.expire := by
  unfold stored at hs
  cases hk : mapGet c.items k with
  | none => simp [hk] at hs
  | some a =>
    obtain ⟨e, hat, he, hek, hea⟩ := h.lookup k a hk
    simp only [hk, hat, Option.map_some', Option.some.injEq] at hs
    subst hs
    refine ⟨{ c with queue := MoveToFront c.queue a }, ?_, h.moveToFront a, ?_, rfl, rfl, rfl⟩
    · simp only [Get, hk, hat]
      rw [if_pos h1]
    · simp only [entries]
      rw [MoveToFront_of_elementAt _ _ _ hat, List.map_cons, ← hea, h.entries_Remove e he, hek]
      rfl

theorem Delete_absent (c : LruCache V) (k : String) (hk : mapGet c.items k = none) :
    Delete c k = (c, some "heapCache :: Cache not found") := by
  simp [Delete, hk]

theorem Delete_present {c : LruCache V} (h : WF c) (k : String) (a : Nat)
    (hk : mapGet c.items k = some a) :
    ∃ c1, Delete c k = (c1, none) ∧ WF c1 ∧
      entries c1 = (entries c).filter (fun m => decide (m.key ≠ k)) ∧
      c1.items.length + 1 = c.items.length ∧ mapGet c1.items k = none ∧
      c1.capacity = c.capacity ∧ c1.expire = c.expire := by
  obtain ⟨e, hat, he, hek, hea⟩ := h.lookup k a hk
  have hw := h.remove e he
  rw [hek, hea] at hw
  refine ⟨_, ?_, hw, ?_, ?_, ?_, rfl, rfl⟩
  · simp [Delete, hk]
  · simp only [entries]
    rw [← hea, h.entries_Remove e he, hek]
    rfl
  · have h1 := hw.length_eq
    have h2 := (perm_cons_Remove c.queue e h.addrs he).length_eq
    rw [hea] at h2
    simp only [List.length_cons] at h2
    rw [h1, h2, h.length_eq]
  · show mapGet (mapDelete c.items k) k = none
    rw [mapGet_mapDelete]
    simp

end getdel

/-! ## `DeleteExpired` -/

section sweep
variable {V : Type}

theorem DeleteExpired_loop_spec (now : Int) (rest : List (String × Nat)) :
    ∀ (c : LruCache V) (n : Nat), WF c → (rest.map Prod.fst).Nodup →
      (∀ p ∈ rest, p ∈ c.items) →
      ∃ c1 n1, DeleteExpired.loop now rest c n = some (c1, n1) ∧ WF c1 ∧
        c1.queue = c.queue.filter (fun e =>
          !(decide (e.Value.expireAt ≠ NO_EXPIRE ∧ e.Value.expireAt < now) &&
            decide (e.Value.key ∈ rest.map Prod.fst))) ∧
        n1 + c1.queue.length = n + c.queue.length ∧
        c1.capacity = c.capacity ∧ c1.expire = c.expire ∧ c1.nextAddr = c.nextAddr := by
  induction rest with
  | nil =>
    intro c n h _ _
    exact ⟨c, n, rfl, h, by simp, rfl, rfl, rfl, rfl⟩
  | cons p rest ih =>
    intro c n h hnd hsub
    obtain ⟨k, a⟩ := p
    simp only [List.map_cons, List.nodup_cons] at hnd
    have hka : mapGet c.items k = some a :=
      mapGet_of_mem _ _ _ h.keys (hsub _ (List.mem_cons_self _ _))
    obtain ⟨e, hat, he, hek, hea⟩ := h.lookup k a hka
    by_cases hx : e.Value.expireAt ≠ NO_EXPIRE ∧ e.Value.expireAt < now
    · have hw := h.remove e he
      rw [hek, hea] at hw
      have hsub2 : ∀ p ∈ rest, p ∈ mapDelete c.items k := by
        intro p hp
        unfold mapDelete
        rw [List.mem_filter]
        refine ⟨hsub p (List.mem_cons_of_mem _ hp), ?_⟩
        have : p.1 ≠ k := by
          rintro rfl
          exact hnd.1 (List.mem_map_of_mem Prod.fst hp)
        simpa using this
      obtain ⟨c1, n1, hl, hw1, hq, hn, hc, hex, hna⟩ := ih _ (n + 1) hw hnd.2 hsub2
      refine ⟨c1, n1, ?_, hw1, ?_, ?_, hc, hex, hna⟩
      · simp only [DeleteExpired.loop, hat]
        rw [if_pos hx]
        exact hl
      · rw [hq]
        show List.filter _ (Remove c.queue a) = _
        rw [← hea, h.Remove_eq_filter e he, List.filter_filter]
        apply List.filter_congr
        intro y hy
        by_cases hyk : y.Value.key = k
        · have hya : y.addr = e.addr := (h.key_addr y e hy he).1 (hyk.trans hek.symm)
          have hye : y = e := by
            have h1 := elementAt_of_mem _ _ h.addrs hy
            have h2 := elementAt_of_mem _ _ h.addrs he
            rw [hya, h2] at h1
            exact (Option.some.inj h1).symm
          subst hye
          simp [hyk, hx, hek]
        · have : y.Value.key ≠ e.Value.key := hek ▸ hyk
          have hb : (y.Value.key == k) = false := by simpa using hyk
          simp [hyk, this, hb]
      · have h2 := (perm_cons_Remove c.queue e h.addrs he).length_eq
        rw [hea] at h2
        simp only [List.length_cons] at h2
        have h3 : n1 + c1.queue.length = n + 1 + (Remove c.queue a).length := hn
        omega
    · obtain ⟨c1, n1, hl, hw1, hq, hn, hc, hex, hna⟩ :=
        ih c n h hnd.2 (fun p hp => hsub p (List.mem_cons_of_mem _ hp))
      refine ⟨c1, n1, ?_, hw1, ?_, hn, hc, hex, hna⟩
      · simp only [DeleteExpired.loop, hat]
        rw [if_neg hx]
        exact hl
      · rw [hq]
        apply List.filter_congr
        intro y hy
        by_cases hyk : y.Value.key = k
        · have hya : y.addr = e.addr := (h.key_addr y e hy he).1 (hyk.trans hek.symm)
          have hye : y = e := by
            have h1 := elementAt_of_mem _ _ h.addrs hy
            have h2 := elementAt_of_mem _ _ h.addrs he
            rw [hya, h2] at h1
            exact (Option.some.inj h1).symm
          subst hye
          simp [hx]
        · have hb : (y.Value.key == k) = false := by simpa using hyk
          simp [hyk, hb]

theorem WF.queue_all_keys {c : LruCache V} (h : WF c) (e : Element V) (he : e ∈ c.queue) :
    e.Value.key ∈ c.items.map Prod.fst := by
  have := mem_of_mapGet _ _ _ (h.mem_items e he)
  exact List.mem_map_of_mem Prod.fst this

/-- The sweep removes from the queue exactly the elements whose expiry is set and
strictly before `now`, and reports how many it removed. -/
theorem DeleteExpired_spec {c : LruCache V} (h : WF c) (now : Int) :
    ∃ c1 r, DeleteExpired c now = some (c1, r) ∧ WF c1 ∧
      c1.queue = c.queue.filter (fun e =>
        !decide (e.Value.expireAt ≠ NO_EXPIRE ∧ e.Value.expireAt < now)) ∧
      c1.capacity = c.capacity ∧ c1.expire = c.expire ∧
      (r = if c.items.length = 0 then Except.error "heapCache :: No items available"
        else if c.queue.length - c1.queue.length > 0 then
          Except.ok ("heapCache :: " ++ toString (c.queue.length - c1.queue.length) ++
            " item(s) are deleted")
        else Except.error "heapCache :: No expired items are found") := by
  by_cases h0 : c.items.length = 0
  · refine ⟨c, _, ?_, h, ?_, rfl, rfl, rfl⟩
    · simp [DeleteExpired, h0]
    · have : c.queue = [] := by
        have := h.length_eq
        rw [h0] at this
        exact List.length_eq_zero.1 this.symm
      rw [this]
      rfl
  · obtain ⟨c1, n1, hl, hw1, hq, hn, hc, hex, _⟩ :=
      DeleteExpired_loop_spec now c.items c 0 h h.keys (fun p hp => hp)
    have hq1 : c1.queue = c.queue.filter (fun e =>
        !decide (e.Value.expireAt ≠ NO_EXPIRE ∧ e.Value.expireAt < now)) := by
      rw [hq]
      apply List.filter_congr
      intro y hy
      simp [h.queue_all_keys y hy]
    have hn1 : n1 = c.queue.length - c1.queue.length := by omega
    refine ⟨c1, _, ?_, hw1, hq1, hc, hex, rfl⟩
    simp only [DeleteExpired, h0, if_false, hl]
    rw [hn1]
    split <;> rfl

end sweep

/-! ## `GetAll` -/

section getall
variable {V : Type} {β : Type}

theorem mapGet_mapSet (m : List (String × β)) (k j : String) (b : β) :
    mapGet (mapSet m k b) j = if j = k then some b else mapGet m j := by
  induction m with
  | nil =>
    by_cases hj : j = k
    · simp [mapSet, mapGet, hj]
    · simp [mapSet, mapGet, hj, Ne.symm hj]
  | cons p rest ih =>
    obtain ⟨k0, b0⟩ := p
    by_cases hk : k0 = k
    · by_cases hj : j = k
      · simp [mapSet, mapGet, hk, hj]
      · simp [mapSet, mapGet, hk, hj, Ne.symm hj]
    · by_cases hj : j = k
      · subst hj
        simp [mapSet, mapGet, hk, ih]
      · by_cases hj0 : k0 = j
        · simp [mapSet, mapGet, hk, hj, hj0]
        · simp [mapSet, mapGet, hk, hj, hj0, ih]

theorem mapSet_keys_nodup (m : List (String × β)) (k : String) (b : β)
    (h : (m.map Prod.fst).Nodup) : ((mapSet m k b).map Prod.fst).Nodup := by
  cases hk : mapGet m k with
  | none =>
    rw [mapSet_of_none _ _ _ hk, List.map_append, List.nodup_append]
    refine ⟨h, by simp, ?_⟩
    intro x hx1 hx2
    simp only [List.map_cons, List.map_nil, List.mem_singleton] at hx2
    subst hx2
    exact (mapGet_eq_none_iff _ _).1 hk hx1
  | some b0 =>
    have : (mapSet m k b).map Prod.fst = m.map Prod.fst := by
      clear h
      induction m with
      | nil => simp [mapGet] at hk
      | cons p rest ih =>
        obtain ⟨k1, b1⟩ := p
        by_cases h1 : k1 = k
        · simp [mapSet, h1]
        · simp only [mapGet, h1, if_false] at hk
          simp [mapSet, h1, ih hk]
    rw [this]
    exact h

theorem mem_keys_iff_mapGet (m : List (String × β)) (k : String) :
    k ∈ m.map Prod.fst ↔ mapGet m k ≠ none := by
  rw [Ne, mapGet_eq_none_iff]
  simp

theorem GetAll_loop_spec {c : LruCache V} (h : WF c) (now : Int) (rest : List (String × Nat)) :
    ∀ (acc : List (String × AnyValue V)), (rest.map Prod.fst).Nodup →
      (∀ p ∈ rest, p ∈ c.items) → (acc.map Prod.fst).Nodup →
      ∃ m, GetAll.loop c.queue now rest acc = some m ∧ (m.map Prod.fst).Nodup ∧
        ∀ j, mapGet m j =
          match mapGet rest j with
          | none => mapGet acc j
          | some a =>
            match elementAt c.queue a with
            | none => mapGet acc j
            | some e =>
              if e.Value.expireAt = NO_EXPIRE ∨ e.Value.expireAt > now then
                some (AnyValue.element e)
              else mapGet acc j := by
  induction rest with
  | nil =>
    intro acc _ _ hacc
    exact ⟨acc, rfl, hacc, fun j => rfl⟩
  | cons p rest ih =>
    intro acc hnd hsub hacc
    obtain ⟨k, a⟩ := p
    simp only [List.map_cons, List.nodup_cons] at hnd
    have hka : mapGet c.items k = some a :=
      mapGet_of_mem _ _ _ h.keys (hsub _ (List.mem_cons_self _ _))
    obtain ⟨e, hat, he, hek, hea⟩ := h.lookup k a hka
    have hrk : mapGet rest k = none := (mapGet_eq_none_iff _ _).2 hnd.1
    have hsub2 : ∀ p ∈ rest, p ∈ c.items := fun p hp => hsub p (List.mem_cons_of_mem _ hp)
    by_cases hx : e.Value.expireAt = NO_EXPIRE ∨ e.Value.expireAt > now
    · obtain ⟨m, hm, hmn, hmj⟩ := ih (mapSet acc k (AnyValue.element e)) hnd.2 hsub2
        (mapSet_keys_nodup _ _ _ hacc)
      refine ⟨m, ?_, hmn, ?_⟩
      · simp only [GetAll.loop, hat]
        rw [if_pos hx]
        exact hm
      · intro j
        rw [hmj j]
        by_cases hj : k = j
        · subst hj
          simp only [hrk, mapGet, if_true, hat]
          rw [if_pos hx, mapGet_mapSet]
          simp
        · have hj2 : j ≠ k := Ne.symm hj
          simp only [mapGet, hj, if_false, mapGet_mapSet, hj2]
    · obtain ⟨m, hm, hmn, hmj⟩ := ih acc hnd.2 hsub2 hacc
      refine ⟨m, ?_, hmn, ?_⟩
      · simp only [GetAll.loop, hat]
        rw [if_neg hx]
        exact hm
      · intro j
        rw [hmj j]
        by_cases hj : k = j
        · subst hj
          simp only [hrk, mapGet, if_true, hat]
          rw [if_neg hx]
        · simp only [mapGet, hj, if_false]

/-- The map `GetAll` builds: a key is present exactly when it is stored with an
expiry that is unset or in the future, and its value is the queue element. -/
theorem GetAll_spec {c : LruCache V} (h : WF c) (now : Int) :
    ∃ m, GetAll c now = some m ∧ (m.map Prod.fst).Nodup ∧
      ∀ j, mapGet m j =
        match mapGet c.items j with
        | none => none
        | some a =>
          match elementAt c.queue a with
          | none => none
          | some e =>
            if e.Value.expireAt = NO_EXPIRE ∨ e.Value.expireAt > now then
              some (AnyValue.element e)
            else none := by
  obtain ⟨m, hm, hmn, hmj⟩ := GetAll_loop_spec h now c.items [] h.keys (fun p hp => hp)
    (by simp)
  refine ⟨m, hm, hmn, ?_⟩
  intro j
  rw [hmj j]
  simp only [mapGet]

end getall

/-! ## Single calls and sequences of calls -/

section runs
variable {V : Type}

theorem stored_congr {c c1 : LruCache V} (h : WF c) (h1 : WF c1) (j : String)
    (hm : ∀ n : Node V, n.key = j → (n ∈ entries c1 ↔ n ∈ entries c)) :
    stored c1 j = stored c j := by
  apply Option.ext
  intro n
  rw [Option.mem_def, Option.mem_def, h1.stored_eq_some, h.stored_eq_some]
  constructor
  · rintro ⟨hn, hk⟩
    exact ⟨(hm n hk).1 hn, hk⟩
  · rintro ⟨hn, hk⟩
    exact ⟨(hm n hk).2 hn, hk⟩

/-- Whenever `set` returns, the indices stay consistent, the configuration is kept,
and every entry of the new state is the written node or an entry of the old state. -/
theorem set_some {c c1 : LruCache V} (h : WF c) (k : String) (v : V) (x : Int)
    (hs : set c k v x = some c1) :
    WF c1 ∧ c1.capacity = c.capacity ∧ c1.expire = c.expire ∧
      stored c1 k = some ⟨v, x, k⟩ ∧
      (∀ n ∈ entries c1, n = ⟨v, x, k⟩ ∨ (n ∈ entries c ∧ n.key ≠ k)) ∧
      ((c.items.length : Int) ≤ c.capacity → (c1.items.length : Int) ≤ c1.capacity) := by
  cases hk : mapGet c.items k with
  | some a =>
    obtain ⟨c2, h2, hw, he, hi, hc, hx⟩ := set_update h k v x a hk
    rw [hs] at h2
    cases h2
    refine ⟨hw, hc, hx, ?_, ?_, ?_⟩
    · rw [hw.stored_eq_some, he]
      simp
    · intro n hn
      rw [he] at hn
      rcases List.mem_cons.1 hn with h3 | h3
      · exact Or.inl h3
      · have := List.mem_filter.1 h3
        exact Or.inr ⟨this.1, by simpa using this.2⟩
    · intro hl
      rw [hi, hc]
      exact hl
  | none =>
    have hnk := (h.not_stored_entries k).1 hk
    by_cases hc : c.capacity = (c.items.length : Int)
    · by_cases hpos : 1 ≤ c.capacity
      · obtain ⟨c2, t, h2, _, hw, _, he, hi, hcc, hx⟩ := set_evict h k v x hk hc hpos
        rw [hs] at h2
        cases h2
        refine ⟨hw, hcc, hx, ?_, ?_, ?_⟩
        · rw [hw.stored_eq_some, he]
          simp
        · intro n hn
          rw [he] at hn
          rcases List.mem_cons.1 hn with h3 | h3
          · exact Or.inl h3
          · have h4 := List.mem_of_mem_dropLast h3
            exact Or.inr ⟨h4, hnk n h4⟩
        · intro hl
          rw [hi, hcc]
          exact hl
      · exfalso
        have h0 : c.items.length = 0 := by omega
        have hq : c.queue = [] := by
          have := h.length_eq
          rw [h0] at this
          exact List.length_eq_zero.1 this.symm
        simp [set, hk, hc, Back, hq] at hs
    · obtain ⟨c2, h2, hw, he, hi, hcc, hx⟩ := set_insert h k v x hk hc
      rw [hs] at h2
      cases h2
      refine ⟨hw, hcc, hx, ?_, ?_, ?_⟩
      · rw [hw.stored_eq_some, he]
        simp
      · intro n hn
        rw [he] at hn
        rcases List.mem_cons.1 hn with h3 | h3
        · exact Or.inl h3
        · exact Or.inr ⟨h3, hnk n h3⟩
      · intro hl
        rw [hi, hcc]
        push_cast
        omega

/-- With a positive capacity `set` always returns. -/
theorem set_total {c : LruCache V} (h : WF c) (hpos : 1 ≤ c.capacity) (k : String) (v : V)
    (x : Int) : ∃ c1, set c k v x = some c1 := by
  cases hk : mapGet c.items k with
  | some a =>
    obtain ⟨c2, h2, _⟩ := set_update h k v x a hk
    exact ⟨c2, h2⟩
  | none =>
    by_cases hc : c.capacity = (c.items.length : Int)
    · obtain ⟨c2, _, h2, _⟩ := set_evict h k v x hk hc hpos
      exact ⟨c2, h2⟩
    · obtain ⟨c2, h2, _⟩ := set_insert h k v x hk hc
      exact ⟨c2, h2⟩

end runs

section runs2
variable {V : Type}

theorem Get_total {c : LruCache V} (h : WF c) (k : String) (now : Int) :
    ∃ c1 r, Get c k now = some (c1, r) := by
  cases hk : mapGet c.items k with
  | none => exact ⟨c, _, Get_absent c k now hk⟩
  | some a =>
    obtain ⟨e, hat, _⟩ := h.lookup k a hk
    by_cases hx : e.Value.expireAt = NO_EXPIRE ∨ e.Value.expireAt > now
    · exact ⟨_, _, by simp only [Get, hk, hat]; rw [if_pos hx]⟩
    · exact ⟨_, _, by simp only [Get, hk, hat]; rw [if_neg hx]⟩

theorem Get_some {c c1 : LruCache V} (h : WF c) (k : String) (now : Int)
    (r : Except String V) (hg : Get c k now = some (c1, r)) :
    WF c1 ∧ c1.items = c.items ∧ c1.capacity = c.capacity ∧ c1.expire = c.expire ∧
      (∀ n, n ∈ entries c1 ↔ n ∈ entries c) := by
  cases hs : stored c k with
  | none =>
    rw [Get_absent c k now ((h.stored_eq_none k).1 hs)] at hg
    cases hg
    exact ⟨h, rfl, rfl, rfl, fun _ => Iff.rfl⟩
  | some n =>
    by_cases hx : n.expireAt = NO_EXPIRE ∨ n.expireAt > now
    · obtain ⟨c2, h2, hw, he, hi, hc, hex⟩ := Get_live h k now n hs hx
      rw [hg] at h2
      cases h2
      refine ⟨hw, hi, hc, hex, ?_⟩
      intro m
      rw [he]
      have hn := (h.stored_eq_some k n).1 hs
      constructor
      · intro hm
        rcases List.mem_cons.1 hm with h3 | h3
        · exact h3 ▸ hn.1
        · exact (List.mem_filter.1 h3).1
      · intro hm
        by_cases hmk : m.key = k
        · have : stored c k = some m := (h.stored_eq_some k m).2 ⟨hm, hmk⟩
          rw [hs] at this
          cases this
          exact List.mem_cons_self _ _
        · exact List.mem_cons_of_mem _ (List.mem_filter.2 ⟨hm, by simpa using hmk⟩)
    · have h1 : n.expireAt ≠ NO_EXPIRE := fun h1 => hx (Or.inl h1)
      have h2 : n.expireAt ≤ now := not_lt.1 (fun h2 => hx (Or.inr h2))
      rw [Get_elapsed h k now n hs h1 h2] at hg
      cases hg
      exact ⟨h, rfl, rfl, rfl, fun _ => Iff.rfl⟩

theorem Delete_some {c : LruCache V} (h : WF c) (k : String) :
    WF (Delete c k).1 ∧ (Delete c k).1.capacity = c.capacity ∧
      (Delete c k).1.expire = c.expire ∧
      (∀ n ∈ entries (Delete c k).1, n ∈ entries c) ∧
      (Delete c k).1.items.length ≤ c.items.length := by
  cases hk : mapGet c.items k with
  | none =>
    rw [Delete_absent c k hk]
    exact ⟨h, rfl, rfl, fun _ hn => hn, le_refl _⟩
  | some a =>
    obtain ⟨c1, h1, hw, he, hl, _, hc, hex⟩ := Delete_present h k a hk
    rw [h1]
    refine ⟨hw, hc, hex, ?_, by simp only; omega⟩
    intro n hn
    simp only at hn
    rw [he] at hn
    exact (List.mem_filter.1 hn).1

theorem step_some {c c1 : LruCache V} (h : WF c) (call : Call V)
    (hs : step c call = some c1) :
    WF c1 ∧ c1.capacity = c.capacity ∧ c1.expire = c.expire ∧
      (∀ n ∈ entries c1, written call n.key = some n.data ∨
        (written call n.key = none ∧ n ∈ entries c)) ∧
      ((c.items.length : Int) ≤ c.capacity → (c1.items.length : Int) ≤ c1.capacity) := by
  have hset : ∀ (k : String) (v : V) (x : Int) (call : Call V),
      (∀ j, written call j = if k = j then some v else none) → set c k v x = some c1 →
      WF c1 ∧ c1.capacity = c.capacity ∧ c1.expire = c.expire ∧
        (∀ n ∈ entries c1, written call n.key = some n.data ∨
          (written call n.key = none ∧ n ∈ entries c)) ∧
        ((c.items.length : Int) ≤ c.capacity → (c1.items.length : Int) ≤ c1.capacity) := by
    intro k v x call hw hs
    obtain ⟨h1, h2, h3, _, h5, h6⟩ := set_some h k v x hs
    refine ⟨h1, h2, h3, ?_, h6⟩
    intro n hn
    rcases h5 n hn with h7 | h7
    · subst h7
      left
      simp [hw]
    · right
      refine ⟨?_, h7.1⟩
      rw [hw]
      simp [Ne.symm h7.2]
  cases call with
  | Get k now =>
    simp only [step, Option.map_eq_some', Prod.exists, exists_and_right, exists_eq_right] at hs
    obtain ⟨r, hr⟩ := hs
    obtain ⟨h1, h2, h3, h4, h5⟩ := Get_some h k now r hr
    refine ⟨h1, h3, h4, fun n hn => Or.inr ⟨rfl, (h5 n).1 hn⟩, ?_⟩
    rw [h2, h3]
    exact id
  | Set k v now => exact hset k v _ _ (fun j => rfl) hs
  | SetWithExpire k v ttl now => exact hset k v _ _ (fun j => rfl) hs
  | GetAll now =>
    simp only [step, Option.map_eq_some'] at hs
    obtain ⟨_, _, rfl⟩ := hs
    exact ⟨h, rfl, rfl, fun n hn => Or.inr ⟨rfl, hn⟩, id⟩
  | Count =>
    simp only [step, Option.some.injEq] at hs
    subst hs
    exact ⟨h, rfl, rfl, fun n hn => Or.inr ⟨rfl, hn⟩, id⟩
  | Delete k =>
    simp only [step, Option.some.injEq] at hs
    subst hs
    obtain ⟨h1, h2, h3, h4, h5⟩ := Delete_some h k
    refine ⟨h1, h2, h3, fun n hn => Or.inr ⟨rfl, h4 n hn⟩, ?_⟩
    intro hl
    rw [h2]
    omega
  | DeleteExpired now =>
    obtain ⟨c2, r, h2, hw, hq, hc, hex, _⟩ := DeleteExpired_spec h now
    simp only [step, h2, Option.map_some', Option.some.injEq] at hs
    subst hs
    refine ⟨hw, hc, hex, ?_, ?_⟩
    · intro n hn
      right
      refine ⟨rfl, ?_⟩
      simp only [entries, hq] at hn ⊢
      obtain ⟨e, he, hev⟩ := List.mem_map.1 hn
      exact List.mem_map.2 ⟨e, (List.mem_filter.1 he).1, hev⟩
    · intro hl
      have h3 : c2.items.length ≤ c.items.length := by
        rw [hw.length_eq, h.length_eq, hq]
        exact List.length_filter_le _ _
      rw [hc]
      omega

theorem step_total {c : LruCache V} (h : WF c) (hpos : 1 ≤ c.capacity) (call : Call V) :
    ∃ c1, step c call = some c1 := by
  cases call with
  | Get k now =>
    obtain ⟨c1, r, hg⟩ := Get_total h k now
    exact ⟨c1, by simp [step, hg]⟩
  | Set k v now => exact set_total h hpos k v _
  | SetWithExpire k v ttl now => exact set_total h hpos k v _
  | GetAll now =>
    obtain ⟨m, hm, _⟩ := GetAll_spec h now
    exact ⟨c, by simp [step, hm]⟩
  | Count => exact ⟨c, rfl⟩
  | Delete k => exact ⟨_, rfl⟩
  | DeleteExpired now =>
    obtain ⟨c2, r, h2, _⟩ := DeleteExpired_spec h now
    exact ⟨c2, by simp [step, h2]⟩

theorem run_cons (c : LruCache V) (call : Call V) (rest : List (Call V)) :
    run c (call :: rest) = (step c call).bind (fun c1 => run c1 rest) := rfl

theorem run_some {c c1 : LruCache V} (calls : List (Call V)) (h : WF c)
    (hr : run c calls = some c1) :
    WF c1 ∧ c1.capacity = c.capacity ∧ c1.expire = c.expire ∧
      ((c.items.length : Int) ≤ c.capacity → (c1.items.length : Int) ≤ c1.capacity) := by
  induction calls generalizing c with
  | nil =>
    simp only [run, Option.some.injEq] at hr
    subst hr
    exact ⟨h, rfl, rfl, id⟩
  | cons call rest ih =>
    rw [run_cons] at hr
    obtain ⟨c2, hs, hr2⟩ := Option.bind_eq_some.1 hr
    obtain ⟨h1, h2, h3, _, h5⟩ := step_some h call hs
    obtain ⟨g1, g2, g3, g4⟩ := ih h1 hr2
    exact ⟨g1, g2.trans h2, g3.trans h3, fun hl => g4 (h5 hl)⟩

theorem run_total {c : LruCache V} (calls : List (Call V)) (h : WF c)
    (hpos : 1 ≤ c.capacity) : ∃ c1, run c calls = some c1 := by
  induction calls generalizing c with
  | nil => exact ⟨c, rfl⟩
  | cons call rest ih =>
    obtain ⟨c2, hs⟩ := step_total h hpos call
    obtain ⟨h1, h2, _⟩ := step_some h call hs
    obtain ⟨c3, h3⟩ := ih h1 (h2 ▸ hpos)
    exact ⟨c3, by rw [run_cons, hs]; exact h3⟩

/-- Data of every stored node is the value last written for its key. -/
theorem run_data {c c1 : LruCache V} (calls : List (Call V)) (w : String → Option V)
    (h : WF c) (hw : ∀ n ∈ entries c, w n.key = some n.data)
    (hr : run c calls = some c1) :
    ∀ n ∈ entries c1,
      (match lastStored calls n.key with
        | some v => some v
        | none => w n.key) = some n.data := by
  induction calls generalizing c w with
  | nil =>
    simp only [run, Option.some.injEq] at hr
    subst hr
    intro n hn
    simpa [lastStored] using hw n hn
  | cons call rest ih =>
    rw [run_cons] at hr
    obtain ⟨c2, hs, hr2⟩ := Option.bind_eq_some.1 hr
    obtain ⟨h1, _, _, h4, _⟩ := step_some h call hs
    have hw2 : ∀ n ∈ entries c2,
        (fun j => match written call j with
          | some v => some v
          | none => w j) n.key = some n.data := by
      intro n hn
      rcases h4 n hn with h5 | h5
      · simp [h5]
      · simp [h5.1, hw n h5.2]
    intro n hn
    have := ih (fun j => match written call j with
      | some v => some v
      | none => w j) h1 hw2 hr2 n hn
    simp only [lastStored]
    cases hl : lastStored rest n.key with
    | some v => simpa [hl] using this
    | none =>
      simp only [hl] at this
      cases hwr : written call n.key with
      | some v => simpa [hwr] using this
      | none => simpa [hwr] using this

/-- Calls that do not write `k` leave the node stored for `k` as it is, as long as
`k` stays stored. -/
theorem run_keeps {c c1 : LruCache V} (calls : List (Call V)) (k : String) (node : Node V)
    (h : WF c) (hq : ∀ n ∈ entries c, n.key = k → n = node)
    (hc : ∀ call ∈ calls, written call k = none)
    (hr : run c calls = some c1) :
    ∀ n ∈ entries c1, n.key = k → n = node := by
  induction calls generalizing c with
  | nil =>
    simp only [run, Option.some.injEq] at hr
    subst hr
    exact hq
  | cons call rest ih =>
    rw [run_cons] at hr
    obtain ⟨c2, hs, hr2⟩ := Option.bind_eq_some.1 hr
    obtain ⟨h1, _, _, h4, _⟩ := step_some h call hs
    refine ih h1 ?_ (fun x hx => hc x (List.mem_cons_of_mem _ hx)) hr2
    intro n hn hnk
    rcases h4 n hn with h5 | h5
    · rw [hnk, hc call (List.mem_cons_self _ _)] at h5
      exact Option.noConfusion h5
    · exact hq n h5.2 hnk

end runs2

/-! ## Further consequences of the invariant -/

section more
variable {V : Type}

theorem fullCache_WF : WF fullCache :=
  ⟨by decide, by decide, by decide, by decide⟩

/-- Every state reached from `New` through public calls has consistent indices. -/
theorem WF_of_run (conf : Config) (calls : List (Call V)) (c : LruCache V)
    (hr : run (New conf) calls = some c) : WF c :=
  (run_some calls (WF_New conf) hr).1

theorem New_capacity (conf : Config) : (New conf : LruCache V).capacity = conf.Capacity := by
  unfold New
  split <;> rfl

theorem New_entries (conf : Config) : entries (New conf : LruCache V) = [] := by
  unfold New
  split <;> rfl

theorem New_items (conf : Config) : (New conf : LruCache V).items = [] := by
  unfold New
  split <;> rfl

theorem headNode_of_entries (c : LruCache V) (n : Node V) (rest : List (Node V))
    (h : entries c = n :: rest) : headNode c = Except.ok n := by
  unfold entries at h
  cases hq : c.queue with
  | nil => simp [hq] at h
  | cons e q =>
    simp only [hq, List.map_cons, List.cons.injEq] at h
    simp [headNode, Front, hq, h.1]

theorem WF.entries_length {c : LruCache V} (h : WF c) : (entries c).length = Count c := by
  simp [entries, Count, h.length_eq]

/-- Inserting a new key into a full cache: the tail entry is gone afterwards. -/
theorem set_evict_gone {c : LruCache V} (h : WF c) (k : String) (v : V) (x : Int)
    (hk : mapGet c.items k = none) (hc : c.capacity = (c.items.length : Int))
    (hpos : 1 ≤ c.capacity) :
    ∃ c1 t, set c k v x = some c1 ∧ tailNode c = Except.ok t ∧ WF c1 ∧
      entries c = (entries c).dropLast ++ [t] ∧
      entries c1 = ⟨v, x, k⟩ :: (entries c).dropLast ∧
      c1.items.length = c.items.length ∧ mapGet c1.items t.key = none := by
  obtain ⟨c1, t, hs, ht, hw, he, he1, hl, _, _⟩ := set_evict h k v x hk hc hpos
  refine ⟨c1, t, hs, ht, hw, he, he1, hl, ?_⟩
  rw [hw.not_stored_entries, he1]
  have hnk := (h.not_stored_entries k).1 hk
  have hnd := h.entries_keys
  rw [he, List.map_append, List.nodup_append] at hnd
  intro n hn
  rcases List.mem_cons.1 hn with h1 | h1
  · subst h1
    intro hkt
    have ht1 : t ∈ entries c := by
      rw [he]
      simp
    exact hnk t ht1 hkt.symm
  · intro hkt
    refine hnd.2.2 (List.mem_map_of_mem Node.key h1) ?_
    rw [hkt]
    simp

/-- A successful `Get` found a stored node whose expiry is unset or in the future. -/
theorem Get_ok_inv {c c1 : LruCache V} (h : WF c) (k : String) (now : Int) (v : V)
    (hg : Get c k now = some (c1, Except.ok v)) :
    ∃ n, stored c k = some n ∧ n.data = v ∧
      (n.expireAt = NO_EXPIRE ∨ n.expireAt > now) ∧ WF c1 ∧
      entries c1 = n :: (entries c).filter (fun m => decide (m.key ≠ k)) ∧
      c1.items = c.items ∧ c1.capacity = c.capacity ∧ c1.expire = c.expire := by
  cases hs : stored c k with
  | none =>
    rw [Get_absent c k now ((h.stored_eq_none k).1 hs)] at hg
    simp at hg
  | some n =>
    by_cases hx : n.expireAt = NO_EXPIRE ∨ n.expireAt > now
    · obtain ⟨c2, h2, hw, he, hi, hc, hex⟩ := Get_live h k now n hs hx
      rw [hg] at h2
      simp only [Option.some.injEq, Prod.mk.injEq, Except.ok.injEq] at h2
      obtain ⟨h3, h4⟩ := h2
      subst h3
      exact ⟨n, rfl, h4.symm, hx, hw, he, hi, hc, hex⟩
    · have h1 : n.expireAt ≠ NO_EXPIRE := fun h1 => hx (Or.inl h1)
      have h2 : n.expireAt ≤ now := not_lt.1 (fun h2 => hx (Or.inr h2))
      rw [Get_elapsed h k now n hs h1 h2] at hg
      simp at hg

theorem wrapInt64_of_fits (x : Int) (h1 : -2 ^ 63 ≤ x) (h2 : x < 2 ^ 63) :
    wrapInt64 x = x := by
  unfold wrapInt64
  omega

/-- After a write of `k`, and later calls that do not write `k`, the node found for `k`
is the written one as long as `k` is stored. -/
theorem set_then_run {c c1 c2 : LruCache V} (h : WF c) (k : String) (v : V) (x : Int)
    (hs : set c k v x = some c1) (calls : List (Call V))
    (hc : ∀ call ∈ calls, written call k = none) (hr : run c1 calls = some c2)
    (hk : mapGet c2.items k ≠ none) :
    WF c2 ∧ stored c2 k = some ⟨v, x, k⟩ := by
  obtain ⟨hw1, _, _, _, h5, _⟩ := set_some h k v x hs
  have hw2 : WF c2 := (run_some calls hw1 hr).1
  refine ⟨hw2, ?_⟩
  have hq : ∀ n ∈ entries c1, n.key = k → n = ⟨v, x, k⟩ := by
    intro n hn hnk
    rcases h5 n hn with h6 | h6
    · exact h6
    · exact absurd hnk h6.2
  have hq2 := run_keeps calls k ⟨v, x, k⟩ hw1 hq hc hr
  cases hs2 : stored c2 k with
  | none => exact absurd ((hw2.stored_eq_none k).1 hs2) hk
  | some n =>
    have hn := (hw2.stored_eq_some k n).1 hs2
    rw [hq2 n hn.1 hn.2]

/-- A stored node whose expiry is unset or not before `now` survives the sweep. -/
theorem DeleteExpired_keeps {c : LruCache V} (h : WF c) (now : Int) (k : String) (n : Node V)
    (hs : stored c k = some n) (hx : n.expireAt = NO_EXPIRE ∨ now ≤ n.expireAt) :
    ∃ c1 r, DeleteExpired c now = some (c1, r) ∧ WF c1 ∧ stored c1 k = some n := by
  obtain ⟨c1, r, hd, hw, hq, _⟩ := DeleteExpired_spec h now
  refine ⟨c1, r, hd, hw, ?_⟩
  obtain ⟨hn, hnk⟩ := (h.stored_eq_some k n).1 hs
  rw [hw.stored_eq_some]
  refine ⟨?_, hnk⟩
  obtain ⟨e, he, hev⟩ := List.mem_map.1 hn
  refine List.mem_map.2 ⟨e, ?_, hev⟩
  rw [hq, List.mem_filter]
  refine ⟨he, ?_⟩
  rw [hev]
  rcases hx with h1 | h1
  · simp [h1]
  · simp only [ne_eq, Bool.not_eq_true', decide_eq_false_iff_not, not_and, not_lt]
    exact fun _ => h1

/-- A stored node whose expiry is unset or in the future is a key of `GetAll`. -/
theorem GetAll_live {c : LruCache V} (h : WF c) (now : Int) (k : String) (n : Node V)
    (hs : stored c k = some n) (hx : n.expireAt = NO_EXPIRE ∨ n.expireAt > now) :
    ∃ m e, GetAll c now = some m ∧ mapGet m k = some (AnyValue.element e) ∧
      e.Value = n ∧ k ∈ m.map Prod.fst := by
  obtain ⟨m, hm, _, hmj⟩ := GetAll_spec h now
  unfold stored at hs
  cases hk : mapGet c.items k with
  | none => simp [hk] at hs
  | some a =>
    obtain ⟨e, hat, _⟩ := h.lookup k a hk
    simp only [hk, hat, Option.map_some', Option.some.injEq] at hs
    have hmk := hmj k
    simp only [hk, hat] at hmk
    rw [hs, if_pos hx] at hmk
    refine ⟨m, e, hm, hmk, hs, ?_⟩
    rw [mem_keys_iff_mapGet, hmk]
    exact Option.noConfusion

/-- Keys of the map `GetAll` returns: the stored keys whose expiry is unset or in the future. -/
theorem GetAll_keys {c : LruCache V} (h : WF c) (now : Int) (m : List (String × AnyValue V))
    (hm : GetAll c now = some m) (k : String) :
    k ∈ m.map Prod.fst ↔
      ∃ n, stored c k = some n ∧ (n.expireAt = NO_EXPIRE ∨ n.expireAt > now) := by
  obtain ⟨m1, hm1, _, hmj⟩ := GetAll_spec h now
  rw [hm] at hm1
  cases hm1
  rw [mem_keys_iff_mapGet, hmj k]
  unfold stored
  cases hk : mapGet c.items k with
  | none => simp
  | some a =>
    obtain ⟨e, hat, _⟩ := h.lookup k a hk
    simp only [hat, Option.map_some', Option.some.injEq, exists_eq_left']
    by_cases hx : e.Value.expireAt = NO_EXPIRE ∨ e.Value.expireAt > now
    · simp [hx]
    · simp [hx]

/-- Effect of one call on the Ordered Index: a call that touches `k` puts the entry of
`k` in front of a sublist of the previous entries with other keys; any other call
leaves a sublist of the previous entries. -/
theorem step_order {c c1 : LruCache V} (h : WF c) (call : Call V)
    (hs : step c call = some c1) :
    match touched c call with
    | some k => ∃ n L, entries c1 = n :: L ∧ n.key = k ∧ L.Sublist (entries c) ∧
        ∀ m ∈ L, m.key ≠ k
    | none => (entries c1).Sublist (entries c) := by
  have hset : ∀ (k : String) (v : V) (x : Int), set c k v x = some c1 →
      ∃ n L, entries c1 = n :: L ∧ n.key = k ∧ L.Sublist (entries c) ∧
        ∀ m ∈ L, m.key ≠ k := by
    intro k v x hs
    cases hk : mapGet c.items k with
    | some a =>
      obtain ⟨c2, h2, _, he, _⟩ := set_update h k v x a hk
      rw [hs] at h2
      cases h2
      refine ⟨_, _, he, rfl, List.filter_sublist _, ?_⟩
      intro m hm
      simpa using (List.mem_filter.1 hm).2
    | none =>
      have hnk := (h.not_stored_entries k).1 hk
      by_cases hc : c.capacity = (c.items.length : Int)
      · by_cases hpos : 1 ≤ c.capacity
        · obtain ⟨c2, t, h2, _, _, _, he, _⟩ := set_evict h k v x hk hc hpos
          rw [hs] at h2
          cases h2
          refine ⟨_, _, he, rfl, List.dropLast_sublist _, ?_⟩
          intro m hm
          exact hnk m (List.mem_of_mem_dropLast hm)
        · exfalso
          have h0 : c.items.length = 0 := by omega
          have hq : c.queue = [] := by
            have := h.length_eq
            rw [h0] at this
            exact List.length_eq_zero.1 this.symm
          simp [set, hk, hc, Back, hq] at hs
      · obtain ⟨c2, h2, _, he, _⟩ := set_insert h k v x hk hc
        rw [hs] at h2
        cases h2
        exact ⟨_, _, he, rfl, List.Sublist.refl _, hnk⟩
  cases call with
  | Set k v now => exact hset k v _ hs
  | SetWithExpire k v ttl now => exact hset k v _ hs
  | Get k now =>
    simp only [step, Option.map_eq_some', Prod.exists, exists_and_right, exists_eq_right] at hs
    obtain ⟨r, hr⟩ := hs
    cases r with
    | ok v =>
      obtain ⟨n, hst, _, _, _, he, _⟩ := Get_ok_inv h k now v hr
      simp only [touched, hr]
      refine ⟨n, _, he, ((h.stored_eq_some k n).1 hst).2, List.filter_sublist _, ?_⟩
      intro m hm
      simpa using (List.mem_filter.1 hm).2
    | error msg =>
      simp only [touched, hr]
      have := (Get_some h k now _ hr)
      cases hst : stored c k with
      | none =>
        rw [Get_absent c k now ((h.stored_eq_none k).1 hst)] at hr
        cases hr
        exact List.Sublist.refl _
      | some n =>
        by_cases hx : n.expireAt = NO_EXPIRE ∨ n.expireAt > now
        · obtain ⟨c2, h2, _⟩ := Get_live h k now n hst hx
          rw [hr] at h2
          simp at h2
        · have h1 : n.expireAt ≠ NO_EXPIRE := fun h1 => hx (Or.inl h1)
          have h2 : n.expireAt ≤ now := not_lt.1 (fun h2 => hx (Or.inr h2))
          rw [Get_elapsed h k now n hst h1 h2] at hr
          cases hr
          exact List.Sublist.refl _
  | GetAll now =>
    simp only [step, Option.map_eq_some'] at hs
    obtain ⟨_, _, rfl⟩ := hs
    exact List.Sublist.refl _
  | Count =>
    simp only [step, Option.some.injEq] at hs
    subst hs
    exact List.Sublist.refl _
  | Delete k =>
    simp only [step, Option.some.injEq] at hs
    subst hs
    show (entries (Delete c k).1).Sublist (entries c)
    cases hk : mapGet c.items k with
    | none =>
      rw [Delete_absent c k hk]
    | some a =>
      obtain ⟨c2, h2, _, he, _⟩ := Delete_present h k a hk
      rw [h2]
      simp only
      rw [he]
      exact List.filter_sublist _
  | DeleteExpired now =>
    obtain ⟨c2, r, h2, _, hq, _⟩ := DeleteExpired_spec h now
    simp only [step, h2, Option.map_some', Option.some.injEq] at hs
    subst hs
    show (entries c2).Sublist (entries c)
    rw [entries, entries, hq]
    exact (List.filter_sublist _).map _

theorem runTouch_cons (c : LruCache V) (i : Nat) (lt : String → Option Nat) (call : Call V)
    (rest : List (Call V)) :
    runTouch c i lt (call :: rest) =
      match step c call with
      | none => none
      | some c1 => runTouch c1 (i + 1) (touchStep c call i lt) rest := rfl

/-- Along a run every stored entry has a last touch, and the Ordered Index lists the
entries in strictly decreasing order of last touch. -/
theorem runTouch_order (calls : List (Call V)) :
    ∀ (c c1 : LruCache V) (i : Nat) (lt lt1 : String → Option Nat), WF c →
      (∀ n ∈ entries c, ∃ t, lt n.key = some t ∧ t < i) →
      (entries c).Pairwise (fun a b =>
        ∃ ta tb, lt a.key = some ta ∧ lt b.key = some tb ∧ tb < ta) →
      runTouch c i lt calls = some (c1, lt1) →
      WF c1 ∧ run c calls = some c1 ∧
        (∀ n ∈ entries c1, ∃ t, lt1 n.key = some t ∧ t < i + calls.length) ∧
        (entries c1).Pairwise (fun a b =>
          ∃ ta tb, lt1 a.key = some ta ∧ lt1 b.key = some tb ∧ tb < ta) := by
  induction calls with
  | nil =>
    intro c c1 i lt lt1 h hd hp hr
    simp only [runTouch, Option.some.injEq, Prod.mk.injEq] at hr
    obtain ⟨rfl, rfl⟩ := hr
    exact ⟨h, rfl, by simpa using hd, hp⟩
  | cons call rest ih =>
    intro c c1 i lt lt1 h hd hp hr
    rw [runTouch_cons] at hr
    cases hs : step c call with
    | none => simp [hs] at hr
    | some c2 =>
      simp only [hs] at hr
      have hw2 : WF c2 := (step_some h call hs).1
      have ho := step_order h call hs
      have key : (∀ n ∈ entries c2, ∃ t, touchStep c call i lt n.key = some t ∧ t < i + 1) ∧
          (entries c2).Pairwise (fun a b =>
            ∃ ta tb, touchStep c call i lt a.key = some ta ∧
              touchStep c call i lt b.key = some tb ∧ tb < ta) := by
        unfold touchStep
        cases ht : touched c call with
        | none =>
          simp only [ht] at ho ⊢
          refine ⟨?_, hp.sublist ho⟩
          intro n hn
          obtain ⟨t, h1, h2⟩ := hd n (ho.subset hn)
          exact ⟨t, h1, Nat.lt_succ_of_lt h2⟩
        | some k =>
          simp only [ht] at ho ⊢
          obtain ⟨n, L, he, hnk, hsub, hL⟩ := ho
          rw [he]
          have hLd : ∀ m ∈ L, ∃ t, lt m.key = some t ∧ t < i :=
            fun m hm => hd m (hsub.subset hm)
          constructor
          · intro m hm
            rcases List.mem_cons.1 hm with h1 | h1
            · subst h1
              exact ⟨i, by simp [hnk], Nat.lt_succ_self i⟩
            · obtain ⟨t, h2, h3⟩ := hLd m h1
              exact ⟨t, by simp [hL m h1, h2], Nat.lt_succ_of_lt h3⟩
          · rw [List.pairwise_cons]
            constructor
            · intro m hm
              obtain ⟨t, h2, h3⟩ := hLd m hm
              exact ⟨i, t, by simp [hnk], by simp [hL m hm, h2], h3⟩
            · refine (hp.sublist hsub).imp_of_mem ?_
              intro a b ha hb hab
              obtain ⟨ta, tb, h1, h2, h3⟩ := hab
              exact ⟨ta, tb, by simp [hL a ha, h1], by simp [hL b hb, h2], h3⟩
      obtain ⟨g1, g2, g3, g4⟩ := ih c2 c1 (i + 1) _ lt1 hw2 key.1 key.2 hr
      refine ⟨g1, ?_, ?_, g4⟩
      · rw [run_cons, hs]
        exact g2
      · intro n hn
        obtain ⟨t, h1, h2⟩ := g3 n hn
        refine ⟨t, h1, ?_⟩
        simp only [List.length_cons]
        omega

theorem runTouch_total (calls : List (Call V)) :
    ∀ (c : LruCache V) (i : Nat) (lt : String → Option Nat), WF c → 1 ≤ c.capacity →
      ∃ c1 lt1, runTouch c i lt calls = some (c1, lt1) := by
  induction calls with
  | nil =>
    intro c i lt _ _
    exact ⟨c, lt, rfl⟩
  | cons call rest ih =>
    intro c i lt h hpos
    obtain ⟨c2, hs⟩ := step_total h hpos call
    obtain ⟨h1, h2, _⟩ := step_some h call hs
    obtain ⟨c3, lt3, h3⟩ := ih c2 (i + 1) (touchStep c call i lt) h1 (h2 ▸ hpos)
    exact ⟨c3, lt3, by rw [runTouch_cons, hs]; exact h3⟩

theorem headNode_eq (c : LruCache V) :
    headNode c = match entries c with
      | [] => Except.error "heapCache :: head node is not available"
      | n :: _ => Except.ok n := by
  unfold headNode Front entries
  cases c.queue <;> rfl

theorem tailNode_eq (c : LruCache V) :
    tailNode c = match (entries c).getLast? with
      | none => Except.error "heapCache :: tail node is not available"
      | some n => Except.ok n := by
  unfold tailNode Back entries
  rw [List.getLast?_map]
  cases c.queue.getLast? <;> rfl

theorem entries_of_queue_filter (c c1 : LruCache V) (p : Node V → Bool)
    (hq : c1.queue = c.queue.filter (fun e => p e.Value)) :
    entries c1 = (entries c).filter p := by
  rw [entries, entries, hq, List.filter_map]
  rfl

theorem take_append_take {α : Type} (a b : List α) (n : Nat) :
    (a ++ b.take n).take n = (a ++ b).take n := by
  rw [List.take_append_eq_append_take, List.take_append_eq_append_take, List.take_take]
  congr 2
  omega

/-- Writing a key that is not stored keeps the newest `capacity` entries. -/
theorem set_new_take {c : LruCache V} (h : WF c) (C : Nat) (hC : 1 ≤ C)
    (hcap : c.capacity = (C : Int)) (hlen : c.items.length ≤ C) (k : String) (v : V)
    (x : Int) (hk : mapGet c.items k = none) :
    ∃ c1, set c k v x = some c1 ∧ WF c1 ∧
      entries c1 = (⟨v, x, k⟩ :: entries c).take C ∧
      c1.capacity = (C : Int) ∧ c1.expire = c.expire ∧ c1.items.length ≤ C := by
  have hel : (entries c).length = c.items.length := h.entries_length
  by_cases hc : c.capacity = (c.items.length : Int)
  · have hpos : 1 ≤ c.capacity := by
      rw [hcap]
      exact_mod_cast hC
    obtain ⟨c1, t, hs, _, hw, _, he, hl, hcc, hx⟩ := set_evict h k v x hk hc hpos
    have hCl : c.items.length = C := by
      rw [hcap] at hc
      exact_mod_cast hc.symm
    refine ⟨c1, hs, hw, ?_, hcc.trans hcap, hx, by omega⟩
    rw [he, List.dropLast_eq_take, hel, hCl]
    obtain ⟨C1, rfl⟩ : ∃ C1, C = C1 + 1 := ⟨C - 1, by omega⟩
    simp
  · obtain ⟨c1, hs, hw, he, hl, hcc, hx⟩ := set_insert h k v x hk hc
    have hlt : c.items.length < C := by
      rcases Nat.lt_or_eq_of_le hlen with h1 | h1
      · exact h1
      · exfalso
        apply hc
        rw [hcap, h1]
    refine ⟨c1, hs, hw, ?_, hcc.trans hcap, hx, by omega⟩
    rw [he]
    symm
    apply List.take_of_length_le
    simp only [List.length_cons, hel]
    omega

/-- A run of `Set` calls on keys that are pairwise distinct and not stored, in a cache
without default expiry: the Ordered Index holds the newest `capacity` entries. -/
theorem run_sets (C : Nat) (hC : 1 ≤ C) (kvs : List (String × V × Int)) :
    ∀ (c : LruCache V), WF c → c.capacity = (C : Int) → c.expire = NO_EXPIRE →
      c.items.length ≤ C → (kvs.map Prod.fst).Nodup →
      (∀ p ∈ kvs, mapGet c.items p.1 = none) →
      ∃ c1, run c (kvs.map (fun p => Call.Set p.1 p.2.1 p.2.2)) = some c1 ∧ WF c1 ∧
        entries c1 =
          ((kvs.reverse.map (fun p => (⟨p.2.1, NO_EXPIRE, p.1⟩ : Node V))) ++ entries c).take C ∧
        c1.capacity = (C : Int) ∧ c1.expire = NO_EXPIRE ∧ c1.items.length ≤ C := by
  induction kvs with
  | nil =>
    intro c h hcap hexp hlen _ _
    refine ⟨c, rfl, h, ?_, hcap, hexp, hlen⟩
    simp only [List.reverse_nil, List.map_nil, List.nil_append]
    symm
    apply List.take_of_length_le
    rw [h.entries_length]
    exact hlen
  | cons p rest ih =>
    intro c h hcap hexp hlen hnd hns
    simp only [List.map_cons, List.nodup_cons] at hnd
    have hk : mapGet c.items p.1 = none := hns p (List.mem_cons_self _ _)
    obtain ⟨c2, hs, hw2, he2, hcap2, hexp2, hlen2⟩ :=
      set_new_take h C hC hcap hlen p.1 p.2.1 NO_EXPIRE hk
    have hstep : step c (Call.Set p.1 p.2.1 p.2.2) = some c2 := by
      simp only [step, Set, hexp]
      simpa using hs
    have hns2 : ∀ q ∈ rest, mapGet c2.items q.1 = none := by
      intro q hq
      rw [hw2.not_stored_entries, he2]
      intro n hn
      have hn2 := List.mem_of_mem_take hn
      rcases List.mem_cons.1 hn2 with h1 | h1
      · subst h1
        intro hpq
        have hpq2 : p.1 = q.1 := hpq
        rw [hpq2] at hnd
        exact hnd.1 (List.mem_map_of_mem Prod.fst hq)
      · exact (h.not_stored_entries q.1).1 (hns q (List.mem_cons_of_mem _ hq)) n h1
    obtain ⟨c1, hr, hw1, he1, hcap1, hexp1, hlen1⟩ :=
      ih c2 hw2 hcap2 (hexp2.trans hexp) hlen2 hnd.2 hns2
    refine ⟨c1, ?_, hw1, ?_, hcap1, hexp1, hlen1⟩
    · rw [List.map_cons, run_cons, hstep]
      exact hr
    · rw [he1, he2, take_append_take]
      simp

theorem run_append (c : LruCache V) (a b : List (Call V)) :
    run c (a ++ b) = (run c a).bind (fun c1 => run c1 b) := by
  induction a generalizing c with
  | nil => rfl
  | cons call rest ih =>
    rw [List.cons_append, run_cons, run_cons]
    cases step c call with
    | none => rfl
    | some c2 => exact ih c2

end more

/-! ## The claims -/

section claims
variable {V : Type}

/-- C1: on a cache built by `New` with capacity `C ≥ 1`, every finite sequence of
`Set`, `SetWithExpire`, `Get`, `Delete`, `DeleteExpired` (and `GetAll`, `Count`) calls, at
arbitrary clock readings and with any configured expiry, runs without a fault, and
`Count() ≤ C` holds after each call of the sequence (after every prefix). -/
theorem C1_count_le_capacity (conf : Config) (hC : 1 ≤ conf.Capacity)
    (calls : List (Call V)) (n : Nat) :
    ∃ c, run (New conf) (calls.take n) = some c ∧ (Count c : Int) ≤ conf.Capacity := by
  have hw : WF (New conf : LruCache V) := WF_New conf
  have hcap : (New conf : LruCache V).capacity = conf.Capacity := New_capacity conf
  obtain ⟨c, hr⟩ := run_total (calls.take n) hw (hcap ▸ hC)
  obtain ⟨_, h2, _, h4⟩ := run_some _ hw hr
  refine ⟨c, hr, ?_⟩
  have h5 := h4 (by rw [New_items, hcap]; simp; omega)
  rw [h2, hcap] at h5
  exact h5

theorem C1_count_le_capacity_witness :
    (1 : Int) ≤ 2 ∧ ∃ c, run (New ⟨2, 1200, 1⟩)
      ([Call.Set "a" 1 0, Call.SetWithExpire "b" 2 (-1) 3, Call.Get "a" 5, Call.Set "c" 3 7,
        Call.DeleteExpired 5000, Call.Delete "b"].take 4) = some c ∧ (Count c : Int) ≤ 2 :=
  ⟨by decide, C1_count_le_capacity ⟨2, 1200, 1⟩ (by decide) _ 4⟩

/-- C2: in a cache of capacity `C ≥ 1` holding exactly `C` entries, writing a key `k`
that is not stored (through `set`, hence through `Set` and `SetWithExpire`, which call
`set` with the expiry they compute) returns a state in which exactly the entry that
`tailNode()` returned before the call is gone, whatever the expiry of any entry: the
other entries keep value, expiry and order, the new entry is at the front, and
`Count()` is still `C`. -/
theorem C2_insert_full_evicts_tail {c : LruCache V} (h : WF c) (hcap : 1 ≤ c.capacity)
    (hfull : (Count c : Int) = c.capacity) (k : String) (v : V)
    (hk : mapGet c.items k = none) :
    (∀ x : Int, ∃ c1 t, set c k v x = some c1 ∧ tailNode c = Except.ok t ∧
      entries c = (entries c).dropLast ++ [t] ∧
      entries c1 = ⟨v, x, k⟩ :: (entries c).dropLast ∧
      headNode c1 = Except.ok ⟨v, x, k⟩ ∧
      mapGet c1.items t.key = none ∧ Count c1 = Count c ∧ WF c1) ∧
    (∀ now : Int, Set c k v now =
      set c k v (if c.expire ≠ NO_EXPIRE then wrapInt64 (now + c.expire) else NO_EXPIRE)) ∧
    (∀ ttl now : Int, SetWithExpire c k v ttl now =
      set c k v (if ttl ≠ NO_EXPIRE then wrapInt64 (now + ttl) else NO_EXPIRE)) := by
  refine ⟨?_, fun _ => rfl, fun _ _ => rfl⟩
  intro x
  obtain ⟨c1, t, hs, ht, hw, he, he1, hl, hgone⟩ :=
    set_evict_gone h k v x hk hfull.symm hcap
  exact ⟨c1, t, hs, ht, he, he1, headNode_of_entries c1 _ _ he1, hgone, hl, hw⟩

theorem C2_insert_full_evicts_tail_witness :
    WF fullCache ∧ (1 : Int) ≤ fullCache.capacity ∧
      (Count fullCache : Int) = fullCache.capacity ∧ mapGet fullCache.items "c" = none ∧
      ∃ c1 t, set fullCache "c" 30 9 = some c1 ∧ tailNode fullCache = Except.ok t ∧
        entries fullCache = (entries fullCache).dropLast ++ [t] ∧
        entries c1 = ⟨30, 9, "c"⟩ :: (entries fullCache).dropLast ∧
        headNode c1 = Except.ok ⟨30, 9, "c"⟩ ∧
        mapGet c1.items t.key = none ∧ Count c1 = Count fullCache ∧ WF c1 :=
  ⟨fullCache_WF, by decide, by decide, by decide,
    (C2_insert_full_evicts_tail fullCache_WF (by decide) (by decide) "c" 30 (by decide)).1 9⟩

/-- C3: in every state a cache built by `New` reaches through public calls, `Get(k)` at
clock reading `now` returns; its error is `Cache not found` exactly when `k` is not
stored, `Cache expired` exactly when `k` is stored with an expiry that is set and not
after `now`, and in every other case it returns, without error, the value most
recently written for `k` by `Set` or `SetWithExpire`. -/
theorem C3_get_result (conf : Config) (calls : List (Call V)) (c : LruCache V)
    (hr : run (New conf) calls = some c) (k : String) (now : Int) :
    ∃ c1 r, Get c k now = some (c1, r) ∧
      (r = Except.error "heapCache :: Cache not found" ↔ mapGet c.items k = none) ∧
      (r = Except.error "heapCache :: Cache expired" ↔
        ∃ n, stored c k = some n ∧ n.expireAt ≠ NO_EXPIRE ∧ n.expireAt ≤ now) ∧
      (r ≠ Except.error "heapCache :: Cache not found" →
        r ≠ Except.error "heapCache :: Cache expired" →
        ∃ v, r = Except.ok v ∧ lastStored calls k = some v) := by
  have hw0 : WF (New conf : LruCache V) := WF_New conf
  have hw : WF c := WF_of_run conf calls c hr
  cases hs : stored c k with
  | none =>
    have hk := (hw.stored_eq_none k).1 hs
    refine ⟨c, _, Get_absent c k now hk, ?_, ?_, ?_⟩
    · simp [hk]
    · simp
    · intro h1
      exact absurd rfl h1
  | some n =>
    have hk : mapGet c.items k ≠ none := fun hk => by
      rw [(hw.stored_eq_none k).2 hk] at hs
      exact Option.noConfusion hs
    by_cases hx : n.expireAt = NO_EXPIRE ∨ n.expireAt > now
    · obtain ⟨c1, hg, _⟩ := Get_live hw k now n hs hx
      refine ⟨c1, _, hg, ?_, ?_, ?_⟩
      · simp [hk]
      · constructor
        · intro h1
          exact Except.noConfusion h1
        · rintro ⟨m, hm, h1, h2⟩
          cases hm
          rcases hx with h3 | h3
          · exact absurd h3 h1
          · exact absurd h2 (not_le.2 h3)
      · intro _ _
        refine ⟨n.data, rfl, ?_⟩
        have hn := (hw.stored_eq_some k n).1 hs
        have := run_data calls (fun _ => none) hw0
          (by rw [New_entries]; intro m hm; simp at hm) hr n hn.1
        rw [hn.2] at this
        cases hl : lastStored calls k with
        | none => simp [hl] at this
        | some v => simpa [hl] using this
    · have h1 : n.expireAt ≠ NO_EXPIRE := fun h1 => hx (Or.inl h1)
      have h2 : n.expireAt ≤ now := not_lt.1 (fun h2 => hx (Or.inr h2))
      refine ⟨c, _, Get_elapsed hw k now n hs h1 h2, ?_, ?_, ?_⟩
      · simp [hk]
      · simp only [true_iff]
        exact ⟨n, rfl, h1, h2⟩
      · intro _ h3
        exact absurd rfl h3

theorem C3_get_result_witness :
    run (New ⟨2, -1, 1⟩) [Call.SetWithExpire "a" 10 5 0, Call.Set "b" 20 0] =
        some fullCache ∧
      ∃ c1 r, Get fullCache "a" 3 = some (c1, r) ∧
        (r = Except.error "heapCache :: Cache not found" ↔
          mapGet fullCache.items "a" = none) ∧
        (r = Except.error "heapCache :: Cache expired" ↔
          ∃ n, stored fullCache "a" = some n ∧ n.expireAt ≠ NO_EXPIRE ∧ n.expireAt ≤ 3) ∧
        (r ≠ Except.error "heapCache :: Cache not found" →
          r ≠ Except.error "heapCache :: Cache expired" →
          ∃ v, r = Except.ok v ∧
            lastStored [Call.SetWithExpire "a" 10 5 0, Call.Set "b" 20 0] "a" = some v) :=
  ⟨by decide, C3_get_result ⟨2, -1, 1⟩ _ fullCache (by decide) "a" 3⟩

/-- C4: a successful `Get(k)` puts the entry of `k` at the front of the Ordered Index and
keeps all other entries, with their contents, in their order; hence in a full cache
with at least two entries, inserting a new key right after it evicts an entry whose key
is not `k`, and `k` is still stored. -/
theorem C4_get_promotes {c c1 : LruCache V} (h : WF c) (k : String) (now : Int) (v : V)
    (hg : Get c k now = some (c1, Except.ok v)) :
    (∃ n, stored c k = some n ∧ n.data = v ∧ headNode c1 = Except.ok n ∧
      entries c1 = n :: (entries c).filter (fun m => decide (m.key ≠ k))) ∧
    c1.items = c.items ∧
    (2 ≤ Count c → (Count c : Int) = c.capacity →
      ∀ (j : String) (w : V) (x : Int), mapGet c1.items j = none →
        ∃ c2 t, set c1 j w x = some c2 ∧ tailNode c1 = Except.ok t ∧ t.key ≠ k ∧
          mapGet c2.items t.key = none ∧ mapGet c2.items k ≠ none) := by
  obtain ⟨n, hs, hd, _, hw, he, hi, hc, _⟩ := Get_ok_inv h k now v hg
  refine ⟨⟨n, hs, hd, headNode_of_entries c1 _ _ he, he⟩, hi, ?_⟩
  intro h2 hfull j w x hj
  have hcap1 : c1.capacity = (c1.items.length : Int) := by
    rw [hc, hi]
    exact hfull.symm
  have hpos : 1 ≤ c1.capacity := by
    rw [hc, ← hfull]
    omega
  obtain ⟨c2, t, hset, ht, hw2, het, he2, _, hgone⟩ :=
    set_evict_gone hw j w x hj hcap1 hpos
  have hlen : (entries c1).length = Count c := by
    rw [hw.entries_length, Count, hi]
    rfl
  cases hF : (entries c).filter (fun m => decide (m.key ≠ k)) with
  | nil =>
    rw [he, hF] at hlen
    simp only [List.length_cons, List.length_nil] at hlen
    omega
  | cons f F =>
    rw [hF] at he
    have hlast : (entries c1).getLast? = some t := by
      rw [het]
      simp
    rw [he, List.getLast?_cons_cons] at hlast
    have htF : t ∈ (entries c).filter (fun m => decide (m.key ≠ k)) := by
      rw [hF]
      exact List.mem_of_getLast?_eq_some hlast
    have htk : t.key ≠ k := by simpa using (List.mem_filter.1 htF).2
    refine ⟨c2, t, hset, ht, htk, hgone, ?_⟩
    have hn2 : n ∈ entries c2 := by
      rw [he2, he]
      simp [List.dropLast]
    have hnk : n.key = k := ((h.stored_eq_some k n).1 hs).2
    intro hk2
    exact (hw2.not_stored_entries k).1 hk2 n hn2 hnk

theorem C4_get_promotes_witness :
    WF fullCache ∧
      Get fullCache "a" 3 = some (⟨[⟨0, ⟨10, 5, "a"⟩⟩, ⟨1, ⟨20, -1, "b"⟩⟩],
        [("a", 0), ("b", 1)], -1, 2, 2⟩, Except.ok 10) ∧
      ∃ c2 t, set (⟨[⟨0, ⟨10, 5, "a"⟩⟩, ⟨1, ⟨20, -1, "b"⟩⟩],
          [("a", 0), ("b", 1)], -1, 2, 2⟩ : LruCache Nat) "c" 30 9 = some c2 ∧
        tailNode (⟨[⟨0, ⟨10, 5, "a"⟩⟩, ⟨1, ⟨20, -1, "b"⟩⟩],
          [("a", 0), ("b", 1)], -1, 2, 2⟩ : LruCache Nat) = Except.ok t ∧ t.key ≠ "a" ∧
        mapGet c2.items t.key = none ∧ mapGet c2.items "a" ≠ none :=
  ⟨fullCache_WF, rfl,
    (C4_get_promotes fullCache_WF "a" 3 10 rfl).2.2 (by decide) (by decide)
      "c" 30 9 (by decide)⟩

/-- C5 as stated fails: with `t0 = 1` and `ttl = 2^63 - 1` the `int64` sum wraps, and
`Get` at `t = 1 < t0 + ttl` already reports the entry expired. -/
theorem C5_overflow_counterexample :
    (0 : Int) ≤ 2 ^ 63 - 1 ∧ (0 : Int) ≤ 1 ∧ (1 : Int) < 1 + (2 ^ 63 - 1) ∧
      (SetWithExpire (New ⟨1, -1, 1⟩ : LruCache Nat) "k" 7 (2 ^ 63 - 1) 1).bind
        (fun c => (Get c "k" 1).map Prod.snd) =
        some (Except.error "heapCache :: Cache expired") :=
  ⟨by decide, by decide, by decide, rfl⟩

/-- C5 (amended): for `ttl ≥ 0` and `t0 ≥ 0` with `t0 + ttl ≤ 2^63 - 1`, after
`SetWithExpire(k, v, ttl)` at `t0` and any later calls that do not write `k` and after
which `k` is still stored, `Get(k)` at every `t < t0 + ttl` returns `v` without error,
and at every `t ≥ t0 + ttl` returns `Cache expired` and leaves the state, hence the
stored entry of `k` and `Count()`, as it was. -/
theorem C5_expiry_window {c : LruCache V} (h : WF c) (hcap : 1 ≤ c.capacity) (k : String)
    (v : V) (ttl t0 : Int) (httl : 0 ≤ ttl) (ht0 : 0 ≤ t0) (hfit : t0 + ttl < 2 ^ 63) :
    ∃ c1, SetWithExpire c k v ttl t0 = some c1 ∧
      ∀ (calls : List (Call V)) (c2 : LruCache V),
        (∀ call ∈ calls, written call k = none) → run c1 calls = some c2 →
        mapGet c2.items k ≠ none →
        ∀ t : Int,
          (t < t0 + ttl → ∃ c3, Get c2 k t = some (c3, Except.ok v)) ∧
          (t0 + ttl ≤ t →
            Get c2 k t = some (c2, Except.error "heapCache :: Cache expired")) := by
  have hne : ttl ≠ NO_EXPIRE := by
    unfold NO_EXPIRE
    omega
  have hx : (if ttl ≠ NO_EXPIRE then wrapInt64 (t0 + ttl) else NO_EXPIRE) = t0 + ttl := by
    rw [if_pos hne]
    exact wrapInt64_of_fits _ (by omega) hfit
  obtain ⟨c1, hs⟩ := set_total h hcap k v (t0 + ttl)
  refine ⟨c1, ?_, ?_⟩
  · show set c k v _ = some c1
    rw [hx]
    exact hs
  · intro calls c2 hc hr hk t
    obtain ⟨hw2, hst⟩ := set_then_run h k v (t0 + ttl) hs calls hc hr hk
    constructor
    · intro ht
      obtain ⟨c3, hg, _⟩ := Get_live hw2 k t _ hst (Or.inr ht)
      exact ⟨c3, hg⟩
    · intro ht
      refine Get_elapsed hw2 k t _ hst ?_ ht
      show t0 + ttl ≠ NO_EXPIRE
      unfold NO_EXPIRE
      omega

theorem C5_expiry_window_witness :
    WF fullCache ∧ (1 : Int) ≤ fullCache.capacity ∧ (0 : Int) ≤ 2 ∧ (0 : Int) ≤ 100 ∧
      (100 : Int) + 2 < 2 ^ 63 ∧
      ∃ c1, SetWithExpire fullCache "k" 7 2 100 = some c1 ∧
        ∀ (calls : List (Call Nat)) (c2 : LruCache Nat),
          (∀ call ∈ calls, written call "k" = none) → run c1 calls = some c2 →
          mapGet c2.items "k" ≠ none →
          ∀ t : Int,
            (t < 100 + 2 → ∃ c3, Get c2 "k" t = some (c3, Except.ok 7)) ∧
            (100 + 2 ≤ t →
              Get c2 "k" t = some (c2, Except.error "heapCache :: Cache expired")) :=
  ⟨fullCache_WF, by decide, by decide, by decide, by decide,
    C5_expiry_window fullCache_WF (by decide) "k" 7 2 100 (by decide) (by decide)
      (by decide)⟩

/-- C6 as stated fails: at `now = 1` the call `SetWithExpire(k, v, 2^63 - 1)` stores the
expiry `-2^63`, not `now + ttl = 2^63`, because the `int64` sum wraps; likewise `Set`
on a cache whose engine default is `2^63 - 1`. -/
theorem C6_marker_overflow_counterexample :
    ((2 : Int) ^ 63 - 1 ≠ NO_EXPIRE) ∧
      SetWithExpire (New ⟨1, -1, 1⟩ : LruCache Nat) "k" 7 (2 ^ 63 - 1) 1 =
        some ⟨[⟨0, ⟨7, -2 ^ 63, "k"⟩⟩], [("k", 0)], -1, 1, 1⟩ ∧
      Set (New ⟨1, 2 ^ 63 - 1, 1⟩ : LruCache Nat) "k" 7 1 =
        some ⟨[⟨0, ⟨7, -2 ^ 63, "k"⟩⟩], [("k", 0)], 2 ^ 63 - 1, 1, 1⟩ ∧
      (-2 ^ 63 : Int) ≠ 1 + (2 ^ 63 - 1) :=
  ⟨by decide, rfl, rfl, by decide⟩

/-- C6 (amended): for a state with consistent indices and positive capacity, `Set`
stores the expiry `now + default_expire` whenever that sum fits `int64` (the stored
value is the `int64` sum, which wraps around otherwise), or `NO_EXPIRE` when the engine
default is `NO_EXPIRE`, and is the same call as `SetWithExpire` with
`ttl = default_expire`; `SetWithExpire` stores `now + ttl` under the same condition, or
`NO_EXPIRE` when `ttl` is `NO_EXPIRE` whatever the engine default; and an entry written
with `ttl = NO_EXPIRE` is, at any later time and as long as it is stored and not
overwritten, never reported expired by `Get`, always a key of `GetAll`, and kept by
`DeleteExpired`. -/
theorem C6_expiry_marker {c : LruCache V} (h : WF c) (hcap : 1 ≤ c.capacity) (k : String)
    (v : V) (now : Int) :
    (∃ c1 x, Set c k v now = some c1 ∧ stored c1 k = some ⟨v, x, k⟩ ∧
      (c.expire = NO_EXPIRE → x = NO_EXPIRE) ∧
      (c.expire ≠ NO_EXPIRE → x = wrapInt64 (now + c.expire)) ∧
      (c.expire ≠ NO_EXPIRE → -2 ^ 63 ≤ now + c.expire → now + c.expire < 2 ^ 63 →
        x = now + c.expire)) ∧
    Set c k v now = SetWithExpire c k v c.expire now ∧
    (∀ ttl : Int, ∃ c1 x, SetWithExpire c k v ttl now = some c1 ∧
      stored c1 k = some ⟨v, x, k⟩ ∧
      (ttl = NO_EXPIRE → x = NO_EXPIRE) ∧
      (ttl ≠ NO_EXPIRE → x = wrapInt64 (now + ttl)) ∧
      (ttl ≠ NO_EXPIRE → -2 ^ 63 ≤ now + ttl → now + ttl < 2 ^ 63 → x = now + ttl)) ∧
    (∃ c1, SetWithExpire c k v NO_EXPIRE now = some c1 ∧
      ∀ (calls : List (Call V)) (c2 : LruCache V),
        (∀ call ∈ calls, written call k = none) → run c1 calls = some c2 →
        mapGet c2.items k ≠ none →
        ∀ t : Int,
          (∃ c3, Get c2 k t = some (c3, Except.ok v)) ∧
          (∃ m, GetAll c2 t = some m ∧ k ∈ m.map Prod.fst) ∧
          (∃ c3 r, DeleteExpired c2 t = some (c3, r) ∧
            stored c3 k = some ⟨v, NO_EXPIRE, k⟩)) := by
  have hswe : ∀ ttl : Int, ∃ c1 x, SetWithExpire c k v ttl now = some c1 ∧
      stored c1 k = some ⟨v, x, k⟩ ∧
      (ttl = NO_EXPIRE → x = NO_EXPIRE) ∧
      (ttl ≠ NO_EXPIRE → x = wrapInt64 (now + ttl)) ∧
      (ttl ≠ NO_EXPIRE → -2 ^ 63 ≤ now + ttl → now + ttl < 2 ^ 63 → x = now + ttl) := by
    intro ttl
    obtain ⟨c1, hs⟩ := set_total h hcap k v
      (if ttl ≠ NO_EXPIRE then wrapInt64 (now + ttl) else NO_EXPIRE)
    refine ⟨c1, _, hs, (set_some h k v _ hs).2.2.2.1, ?_, ?_, ?_⟩
    · intro ht
      simp [ht]
    · intro ht
      simp [ht]
    · intro ht h1 h2
      simp only [ne_eq, ht, not_false_eq_true, if_true]
      exact wrapInt64_of_fits _ h1 h2
  refine ⟨hswe c.expire, rfl, hswe, ?_⟩
  obtain ⟨c1, hs⟩ := set_total h hcap k v NO_EXPIRE
  refine ⟨c1, hs, ?_⟩
  intro calls c2 hc hr hk t
  obtain ⟨hw2, hst⟩ := set_then_run h k v NO_EXPIRE hs calls hc hr hk
  refine ⟨?_, ?_, ?_⟩
  · obtain ⟨c3, hg, _⟩ := Get_live hw2 k t _ hst (Or.inl rfl)
    exact ⟨c3, hg⟩
  · obtain ⟨m, _, hm, _, _, hmem⟩ := GetAll_live hw2 t k _ hst (Or.inl rfl)
    exact ⟨m, hm, hmem⟩
  · obtain ⟨c3, r, hd, _, hs3⟩ := DeleteExpired_keeps hw2 t k _ hst (Or.inl rfl)
    exact ⟨c3, r, hd, hs3⟩

theorem C6_expiry_marker_witness :
    WF fullCache ∧ (1 : Int) ≤ fullCache.capacity ∧
      Set fullCache "a" 11 100 = SetWithExpire fullCache "a" 11 fullCache.expire 100 ∧
      ∃ c1 x, SetWithExpire fullCache "a" 11 60 100 = some c1 ∧
        stored c1 "a" = some ⟨11, x, "a"⟩ ∧
        ((60 : Int) = NO_EXPIRE → x = NO_EXPIRE) ∧
        ((60 : Int) ≠ NO_EXPIRE → x = wrapInt64 (100 + 60)) ∧
        ((60 : Int) ≠ NO_EXPIRE → -2 ^ 63 ≤ (100 : Int) + 60 → (100 : Int) + 60 < 2 ^ 63 →
          x = 100 + 60) :=
  ⟨fullCache_WF, by decide,
    (C6_expiry_marker fullCache_WF (by decide) "a" 11 100).2.1,
    (C6_expiry_marker fullCache_WF (by decide) "a" 11 100).2.2.1 60⟩

/-- C7: writing a key `k` that is already stored (through `set`, hence through `Set` and
`SetWithExpire`), in any state with consistent indices, full or not, returns a state
with the same `Count()` and the same Hash Index, in which the entry of `k` carries the
new value and expiry and is at the front, and all other entries are unchanged and in
their previous order. -/
theorem C7_update_existing {c : LruCache V} (h : WF c) (k : String) (v : V)
    (hk : mapGet c.items k ≠ none) :
    (∀ x : Int, ∃ c1, set c k v x = some c1 ∧ Count c1 = Count c ∧ c1.items = c.items ∧
      entries c1 = ⟨v, x, k⟩ :: (entries c).filter (fun n => decide (n.key ≠ k)) ∧
      headNode c1 = Except.ok ⟨v, x, k⟩ ∧ stored c1 k = some ⟨v, x, k⟩ ∧
      (∀ j, j ≠ k → stored c1 j = stored c j) ∧ WF c1) ∧
    (∀ now : Int, Set c k v now =
      set c k v (if c.expire ≠ NO_EXPIRE then wrapInt64 (now + c.expire) else NO_EXPIRE)) ∧
    (∀ ttl now : Int, SetWithExpire c k v ttl now =
      set c k v (if ttl ≠ NO_EXPIRE then wrapInt64 (now + ttl) else NO_EXPIRE)) := by
  refine ⟨?_, fun _ => rfl, fun _ _ => rfl⟩
  intro x
  cases hka : mapGet c.items k with
  | none => exact absurd hka hk
  | some a =>
    obtain ⟨c1, hs, hw, he, hi, _, _⟩ := set_update h k v x a hka
    refine ⟨c1, hs, by rw [Count, Count, hi], hi, he, headNode_of_entries c1 _ _ he, ?_, ?_, hw⟩
    · rw [hw.stored_eq_some, he]
      simp
    · intro j hj
      apply stored_congr h hw
      intro n hn
      rw [he]
      have hnk : n.key ≠ k := hn ▸ hj
      constructor
      · intro hm
        rcases List.mem_cons.1 hm with h1 | h1
        · subst h1
          exact absurd rfl hnk
        · exact (List.mem_filter.1 h1).1
      · intro hm
        exact List.mem_cons_of_mem _ (List.mem_filter.2 ⟨hm, by simpa using hnk⟩)

theorem C7_update_existing_witness :
    WF fullCache ∧ mapGet fullCache.items "a" ≠ none ∧
      ∃ c1, set fullCache "a" 11 77 = some c1 ∧ Count c1 = Count fullCache ∧
        c1.items = fullCache.items ∧
        entries c1 = ⟨11, 77, "a"⟩ ::
          (entries fullCache).filter (fun n => decide (n.key ≠ "a")) ∧
        headNode c1 = Except.ok ⟨11, 77, "a"⟩ ∧ stored c1 "a" = some ⟨11, 77, "a"⟩ ∧
        (∀ j, j ≠ "a" → stored c1 j = stored fullCache j) ∧ WF c1 :=
  ⟨fullCache_WF, by decide,
    (C7_update_existing fullCache_WF "a" 11 (by decide)).1 77⟩

/-- C8: in a state with consistent indices, at a clock reading `now` held fixed during
the call, `GetAll()` returns a map whose keys are exactly the stored keys whose
expiry is `NO_EXPIRE` or in the future, which are exactly the keys for which `Get` at
`now` succeeds; a stored key whose expiry has elapsed is not a key of the map although
it is still in the Hash Index that `Count()` measures. -/
theorem C8_getall_keys {c : LruCache V} (h : WF c) (now : Int) :
    ∃ m, GetAll c now = some m ∧
      (∀ k, k ∈ m.map Prod.fst ↔
        ∃ n, stored c k = some n ∧ (n.expireAt = NO_EXPIRE ∨ n.expireAt > now)) ∧
      (∀ k, k ∈ m.map Prod.fst ↔ ∃ c1 v, Get c k now = some (c1, Except.ok v)) ∧
      (∀ k n, stored c k = some n → n.expireAt ≠ NO_EXPIRE → n.expireAt ≤ now →
        k ∉ m.map Prod.fst ∧ k ∈ c.items.map Prod.fst ∧ 1 ≤ Count c) := by
  obtain ⟨m, hm, _, _⟩ := GetAll_spec h now
  refine ⟨m, hm, GetAll_keys h now m hm, ?_, ?_⟩
  · intro k
    rw [GetAll_keys h now m hm k]
    constructor
    · rintro ⟨n, hs, hx⟩
      obtain ⟨c1, hg, _⟩ := Get_live h k now n hs hx
      exact ⟨c1, n.data, hg⟩
    · rintro ⟨c1, v, hg⟩
      obtain ⟨n, hs, _, hx, _⟩ := Get_ok_inv h k now v hg
      exact ⟨n, hs, hx⟩
  · intro k n hs h1 h2
    have hk : k ∈ c.items.map Prod.fst := by
      rw [mem_keys_iff_mapGet]
      intro hk
      rw [(h.stored_eq_none k).2 hk] at hs
      exact Option.noConfusion hs
    refine ⟨?_, hk, ?_⟩
    · rw [GetAll_keys h now m hm k]
      rintro ⟨n1, hs1, hx⟩
      rw [hs] at hs1
      cases hs1
      rcases hx with h3 | h3
      · exact h1 h3
      · exact absurd h2 (not_le.2 h3)
    · have := List.length_pos_of_mem hk
      simpa [Count] using this

theorem C8_getall_keys_witness :
    WF fullCache ∧
      ∃ m, GetAll fullCache 5 = some m ∧
        (∀ k, k ∈ m.map Prod.fst ↔
          ∃ n, stored fullCache k = some n ∧ (n.expireAt = NO_EXPIRE ∨ n.expireAt > 5)) ∧
        (∀ k, k ∈ m.map Prod.fst ↔ ∃ c1 v, Get fullCache k 5 = some (c1, Except.ok v)) ∧
        (∀ k n, stored fullCache k = some n → n.expireAt ≠ NO_EXPIRE → n.expireAt ≤ 5 →
          k ∉ m.map Prod.fst ∧ k ∈ fullCache.items.map Prod.fst ∧ 1 ≤ Count fullCache) :=
  ⟨fullCache_WF, C8_getall_keys fullCache_WF 5⟩

/-- C9 fails on the code: after `Set("key1", "value1")`, `GetAll()` maps `key1` to the
queue element (the `*list.Element`), while `Get("key1")` returns the data `value1`. -/
theorem C9_getall_stores_element :
    (Set (New ⟨5, -1, 1⟩ : LruCache String) "key1" "value1" 0).bind (fun c => GetAll c 0) =
        some [("key1", AnyValue.element ⟨0, ⟨"value1", -1, "key1"⟩⟩)] ∧
      (Set (New ⟨5, -1, 1⟩ : LruCache String) "key1" "value1" 0).bind
        (fun c => (Get c "key1" 0).map Prod.snd) = some (Except.ok "value1") ∧
      (AnyValue.element ⟨0, ⟨"value1", -1, "key1"⟩⟩ : AnyValue String) ≠
        AnyValue.data "value1" :=
  ⟨rfl, rfl, fun h => AnyValue.noConfusion h⟩

/-- C10: in a state with consistent indices, `Delete(k)` of a stored key returns nil and
removes exactly the entry of `k`, whatever its expiry: `Count()` drops by one, the
other entries are unchanged and keep their order, and a following `Delete(k)` or
`Get(k)` returns `Cache not found`; `Delete(k)` of a key that is not stored returns
`Cache not found` and leaves the state unchanged. -/
theorem C10_delete {c : LruCache V} (h : WF c) (k : String) :
    (mapGet c.items k ≠ none →
      ∃ c1, Delete c k = (c1, none) ∧ Count c1 + 1 = Count c ∧
        entries c1 = (entries c).filter (fun n => decide (n.key ≠ k)) ∧
        (∀ j, j ≠ k → stored c1 j = stored c j) ∧ stored c1 k = none ∧
        Delete c1 k = (c1, some "heapCache :: Cache not found") ∧
        (∀ now, Get c1 k now = some (c1, Except.error "heapCache :: Cache not found")) ∧
        WF c1) ∧
    (mapGet c.items k = none → Delete c k = (c, some "heapCache :: Cache not found")) := by
  refine ⟨?_, Delete_absent c k⟩
  intro hk
  cases hka : mapGet c.items k with
  | none => exact absurd hka hk
  | some a =>
    obtain ⟨c1, hd, hw, he, hl, hg, _, _⟩ := Delete_present h k a hka
    refine ⟨c1, hd, hl, he, ?_, (hw.stored_eq_none k).2 hg, Delete_absent c1 k hg,
      fun now => Get_absent c1 k now hg, hw⟩
    intro j hj
    apply stored_congr h hw
    intro n hn
    rw [he, List.mem_filter]
    have hnk : n.key ≠ k := hn ▸ hj
    simp [hnk]

theorem C10_delete_witness :
    WF fullCache ∧ mapGet fullCache.items "a" ≠ none ∧
      ∃ c1, Delete fullCache "a" = (c1, none) ∧ Count c1 + 1 = Count fullCache ∧
        entries c1 = (entries fullCache).filter (fun n => decide (n.key ≠ "a")) ∧
        (∀ j, j ≠ "a" → stored c1 j = stored fullCache j) ∧ stored c1 "a" = none ∧
        Delete c1 "a" = (c1, some "heapCache :: Cache not found") ∧
        (∀ now, Get c1 "a" now =
          some (c1, Except.error "heapCache :: Cache not found")) ∧
        WF c1 :=
  ⟨fullCache_WF, by decide, (C10_delete fullCache_WF "a").1 (by decide)⟩

/-- C11: in a state with consistent indices, at a clock reading `now` held fixed during
the call, `DeleteExpired()` returns; its error is `No items available` exactly when the
cache is empty before the call, `No expired items are found` exactly when the cache is
not empty and nothing is removed, and otherwise it returns without error the message
`heapCache :: n item(s) are deleted` with `n ≥ 1` equal to `Count()` before minus
`Count()` after.  No entry whose expiry is `NO_EXPIRE` or in the future is removed, and
the entries that stay keep value, expiry and order (the Ordered Index after the call
is the one before, filtered). -/
theorem C11_delete_expired_result {c : LruCache V} (h : WF c) (now : Int) :
    ∃ c1 r, DeleteExpired c now = some (c1, r) ∧
      (r = Except.error "heapCache :: No items available" ↔ Count c = 0) ∧
      (r = Except.error "heapCache :: No expired items are found" ↔
        Count c ≠ 0 ∧ entries c1 = entries c) ∧
      (r ≠ Except.error "heapCache :: No items available" →
        r ≠ Except.error "heapCache :: No expired items are found" →
        1 ≤ Count c - Count c1 ∧ Count c1 ≤ Count c ∧
          r = Except.ok
            ("heapCache :: " ++ toString (Count c - Count c1) ++ " item(s) are deleted")) ∧
      (∀ n ∈ entries c, n.expireAt = NO_EXPIRE ∨ n.expireAt > now → n ∈ entries c1) ∧
      entries c1 = (entries c).filter
        (fun n => !decide (n.expireAt ≠ NO_EXPIRE ∧ n.expireAt < now)) ∧
      WF c1 := by
  obtain ⟨c1, r, hd, hw, hq, _, _, hr⟩ := DeleteExpired_spec h now
  have he : entries c1 = (entries c).filter
      (fun n => !decide (n.expireAt ≠ NO_EXPIRE ∧ n.expireAt < now)) :=
    entries_of_queue_filter c c1 _ hq
  have hc : Count c = c.queue.length := h.length_eq
  have hc1 : Count c1 = c1.queue.length := hw.length_eq
  have hle : c1.queue.length ≤ c.queue.length := by
    rw [hq]
    exact List.length_filter_le _ _
  have hsame : c1.queue.length = c.queue.length → entries c1 = entries c := by
    intro hl
    have h1 : (entries c1).length = (entries c).length := by
      simpa [entries] using hl
    rw [he] at h1 ⊢
    exact List.filter_eq_self.2 (List.filter_length_eq_length.1 h1)
  have hsame2 : entries c1 = entries c → c1.queue.length = c.queue.length := by
    intro hl
    have := congrArg List.length hl
    simpa [entries] using this
  refine ⟨c1, r, hd, ?_, ?_, ?_, ?_, he, hw⟩
  · rw [hr]
    show _ ↔ c.items.length = 0
    by_cases h0 : c.items.length = 0
    · simp [h0]
    · simp only [h0, if_false, iff_false]
      split <;> simp
  · rw [hr]
    by_cases h0 : c.items.length = 0
    · have : Count c = 0 := h0
      simp [h0, this]
    · have h0c : Count c ≠ 0 := h0
      simp only [h0, if_false]
      by_cases hrem : c.queue.length - c1.queue.length > 0
      · simp only [hrem, if_true]
        constructor
        · intro hx
          exact Except.noConfusion hx
        · rintro ⟨_, hx⟩
          have := hsame2 hx
          omega
      · simp only [hrem, if_false, true_iff]
        exact ⟨h0c, hsame (by omega)⟩
  · intro h1 h2
    rw [hr] at h1 h2 ⊢
    by_cases h0 : c.items.length = 0
    · simp [h0] at h1
    · simp only [h0, if_false] at h1 h2 ⊢
      by_cases hrem : c.queue.length - c1.queue.length > 0
      · simp only [hrem, if_true]
        rw [hc, hc1]
        exact ⟨hrem, hle, rfl⟩
      · simp [hrem] at h2
  · intro n hn hx
    rw [he, List.mem_filter]
    refine ⟨hn, ?_⟩
    rcases hx with h1 | h1
    · simp [h1]
    · simp only [ne_eq, Bool.not_eq_true', decide_eq_false_iff_not, not_and, not_lt]
      exact fun _ => le_of_lt h1

theorem C11_delete_expired_result_witness :
    WF fullCache ∧
      ∃ c1 r, DeleteExpired fullCache 6 = some (c1, r) ∧
        (r = Except.error "heapCache :: No items available" ↔ Count fullCache = 0) ∧
        (r = Except.error "heapCache :: No expired items are found" ↔
          Count fullCache ≠ 0 ∧ entries c1 = entries fullCache) ∧
        (r ≠ Except.error "heapCache :: No items available" →
          r ≠ Except.error "heapCache :: No expired items are found" →
          1 ≤ Count fullCache - Count c1 ∧ Count c1 ≤ Count fullCache ∧
            r = Except.ok ("heapCache :: " ++ toString (Count fullCache - Count c1) ++
              " item(s) are deleted")) ∧
        (∀ n ∈ entries fullCache, n.expireAt = NO_EXPIRE ∨ n.expireAt > 6 →
          n ∈ entries c1) ∧
        entries c1 = (entries fullCache).filter
          (fun n => !decide (n.expireAt ≠ NO_EXPIRE ∧ n.expireAt < 6)) ∧
        WF c1 :=
  ⟨fullCache_WF, C11_delete_expired_result fullCache_WF 6⟩

/-- C12 fails on the code: an entry written at `now = 100` with `ttl = 2` has expiry
`102`; at `now = 102` the sweep tests `expireAt < now` and keeps it (it reports
`No expired items are found`), while `Get` and `GetAll`, which test `expireAt > now`,
treat it as expired: `Get` returns `Cache expired`, `Count()` is 1 and `GetAll()` has
no key. -/
theorem C12_sweep_keeps_entry_expiring_now :
    SetWithExpire (New ⟨5, -1, 1⟩ : LruCache String) "k" "v" 2 100 =
        some ⟨[⟨0, ⟨"v", 102, "k"⟩⟩], [("k", 0)], -1, 5, 1⟩ ∧
      DeleteExpired (⟨[⟨0, ⟨"v", 102, "k"⟩⟩], [("k", 0)], -1, 5, 1⟩ : LruCache String) 102 =
        some (⟨[⟨0, ⟨"v", 102, "k"⟩⟩], [("k", 0)], -1, 5, 1⟩,
          Except.error "heapCache :: No expired items are found") ∧
      Get (⟨[⟨0, ⟨"v", 102, "k"⟩⟩], [("k", 0)], -1, 5, 1⟩ : LruCache String) "k" 102 =
        some (⟨[⟨0, ⟨"v", 102, "k"⟩⟩], [("k", 0)], -1, 5, 1⟩,
          Except.error "heapCache :: Cache expired") ∧
      Count (⟨[⟨0, ⟨"v", 102, "k"⟩⟩], [("k", 0)], -1, 5, 1⟩ : LruCache String) = 1 ∧
      GetAll (⟨[⟨0, ⟨"v", 102, "k"⟩⟩], [("k", 0)], -1, 5, 1⟩ : LruCache String) 102 =
        some [] :=
  ⟨rfl, rfl, rfl, rfl, rfl⟩

/-- C13: for a cache built by `New` with capacity at least 1 and every sequence of
public calls, numbering the calls and writing `lastTouch k` for the number of the last
`Set`, `SetWithExpire` or successful `Get` of `k`: the run returns, every stored entry
has a last touch, the Ordered Index lists the entries front to back in strictly
decreasing order of last touch, so `headNode()` is the most recently and `tailNode()`
the least recently touched stored entry, and `headNode()` / `tailNode()` return
`head node is not available` / `tail node is not available` exactly when the cache is
empty. -/
theorem C13_recency_order (conf : Config) (hC : 1 ≤ conf.Capacity) (calls : List (Call V)) :
    ∃ c lastTouch, runTouch (New conf) 0 (fun _ => none) calls = some (c, lastTouch) ∧
      run (New conf) calls = some c ∧
      (∀ n ∈ entries c, ∃ t, lastTouch n.key = some t ∧ t < calls.length) ∧
      (entries c).Pairwise (fun a b =>
        ∃ ta tb, lastTouch a.key = some ta ∧ lastTouch b.key = some tb ∧ tb < ta) ∧
      (∀ hd, headNode c = Except.ok hd → ∀ n ∈ entries c, n.key ≠ hd.key →
        ∃ th tn, lastTouch hd.key = some th ∧ lastTouch n.key = some tn ∧ tn < th) ∧
      (∀ tl, tailNode c = Except.ok tl → ∀ n ∈ entries c, n.key ≠ tl.key →
        ∃ tt tn, lastTouch tl.key = some tt ∧ lastTouch n.key = some tn ∧ tt < tn) ∧
      (headNode c = Except.error "heapCache :: head node is not available" ↔ Count c = 0) ∧
      (tailNode c = Except.error "heapCache :: tail node is not available" ↔ Count c = 0) ∧
      (Count c ≠ 0 → ∃ hd tl, headNode c = Except.ok hd ∧ tailNode c = Except.ok tl) := by
  have hw0 : WF (New conf : LruCache V) := WF_New conf
  have hcap : (New conf : LruCache V).capacity = conf.Capacity := New_capacity conf
  obtain ⟨c, lt, hr⟩ := runTouch_total calls (New conf : LruCache V) 0 (fun _ => none) hw0
    (hcap ▸ hC)
  obtain ⟨hw, hrun, hdef, hpw⟩ := runTouch_order calls _ c 0 _ lt hw0
    (by rw [New_entries]; intro n hn; simp at hn) (by rw [New_entries]; exact List.Pairwise.nil) hr
  have hcount : Count c = (entries c).length := hw.entries_length.symm
  refine ⟨c, lt, hr, hrun, by simpa using hdef, hpw, ?_, ?_, ?_, ?_, ?_⟩
  · intro hd hh n hn hne
    rw [headNode_eq] at hh
    cases he : entries c with
    | nil => simp [he] at hh
    | cons x L =>
      simp only [he, Except.ok.injEq] at hh
      subst hh
      rw [he] at hpw hn
      rcases List.mem_cons.1 hn with h1 | h1
      · subst h1
        exact absurd rfl hne
      · exact (List.pairwise_cons.1 hpw).1 n h1
  · intro tl ht n hn hne
    rw [tailNode_eq] at ht
    cases hl : (entries c).getLast? with
    | none => simp [hl] at ht
    | some x =>
      simp only [hl, Except.ok.injEq] at ht
      subst ht
      obtain ⟨D, hD⟩ := List.getLast?_eq_some_iff.1 hl
      rw [hD] at hpw hn
      rw [List.pairwise_append] at hpw
      rcases List.mem_append.1 hn with h1 | h1
      · obtain ⟨ta, tb, h2, h3, h4⟩ := hpw.2.2 n h1 x (by simp)
        exact ⟨tb, ta, h3, h2, h4⟩
      · simp only [List.mem_singleton] at h1
        subst h1
        exact absurd rfl hne
  · rw [headNode_eq, hcount]
    cases entries c with
    | nil => simp
    | cons x L => simp
  · rw [tailNode_eq, hcount]
    cases he : entries c with
    | nil => simp
    | cons x L =>
      have : (x :: L).getLast? = some ((x :: L).getLast (by simp)) :=
        List.getLast?_eq_getLast _ _
      rw [this]
      simp
  · intro hne
    rw [headNode_eq, tailNode_eq]
    cases he : entries c with
    | nil =>
      rw [hcount, he] at hne
      exact absurd rfl hne
    | cons x L =>
      have : (x :: L).getLast? = some ((x :: L).getLast (by simp)) :=
        List.getLast?_eq_getLast _ _
      rw [this]
      exact ⟨_, _, rfl, rfl⟩

theorem C13_recency_order_witness :
    (1 : Int) ≤ 2 ∧
      ∃ c lastTouch, runTouch (New ⟨2, -1, 1⟩) 0 (fun _ => none)
          [Call.Set "a" 1 0, Call.Set "b" 2 0, Call.Get "a" 1, Call.Set "c" 3 2] =
            some (c, lastTouch) ∧
        run (New ⟨2, -1, 1⟩)
          [Call.Set "a" 1 0, Call.Set "b" 2 0, Call.Get "a" 1, Call.Set "c" 3 2] = some c ∧
        (∀ n ∈ entries c, ∃ t, lastTouch n.key = some t ∧
          t < [Call.Set "a" 1 0, Call.Set "b" 2 0, Call.Get "a" 1, Call.Set "c" 3 2].length) ∧
        (entries c).Pairwise (fun a b =>
          ∃ ta tb, lastTouch a.key = some ta ∧ lastTouch b.key = some tb ∧ tb < ta) :=
  ⟨by decide,
    let ⟨c, lt, h1, h2, h3, h4, _⟩ :=
      C13_recency_order ⟨2, -1, 1⟩ (by decide)
        [Call.Set "a" 1 0, Call.Set "b" 2 0, Call.Get "a" 1, Call.Set "c" 3 2]
    ⟨c, lt, h1, h2, h3, h4⟩⟩

/-- C14: on a fresh cache of capacity `C ≥ 1` with `Expire = NO_EXPIRE`, `Set` on
pairwise distinct keys `k1, ..., kn` in that order (at any clock readings) returns a
state with `Count() = min(n, C)` whose Ordered Index holds exactly the last `min(n, C)`
keys, `kn` at the head; `GetAll()` has exactly these `min(n, C)` keys; and the keys are
evicted in insertion order: the `Set` that comes `C` positions after the `Set` of a key
`p` finds `p` at the tail and evicts it. -/
theorem C14_sets_of_distinct_keys (C : Nat) (hC : 1 ≤ C) (policy : Int)
    (kvs : List (String × V × Int)) (hnd : (kvs.map Prod.fst).Nodup) (now : Int) :
    (∃ c m, run (New ⟨C, NO_EXPIRE, policy⟩)
        (kvs.map (fun r => Call.Set r.1 r.2.1 r.2.2)) = some c ∧
      Count c = min kvs.length C ∧
      (entries c).map Node.key = ((kvs.map Prod.fst).reverse).take C ∧
      headNode c = (match kvs.reverse with
        | [] => Except.error "heapCache :: head node is not available"
        | p :: _ => Except.ok ⟨p.2.1, NO_EXPIRE, p.1⟩) ∧
      GetAll c now = some m ∧ m.length = min kvs.length C ∧
      (∀ k, k ∈ m.map Prod.fst ↔ k ∈ ((kvs.map Prod.fst).reverse).take C)) ∧
    (∀ pre p mid q post, kvs = pre ++ p :: mid ++ q :: post → mid.length + 1 = C →
      ∃ c1 c2 t, run (New ⟨C, NO_EXPIRE, policy⟩)
          ((pre ++ p :: mid).map (fun r => Call.Set r.1 r.2.1 r.2.2)) = some c1 ∧
        Count c1 = C ∧ tailNode c1 = Except.ok t ∧ t.key = p.1 ∧
        run (New ⟨C, NO_EXPIRE, policy⟩)
          ((pre ++ p :: mid ++ [q]).map (fun r => Call.Set r.1 r.2.1 r.2.2)) = some c2 ∧
        Count c2 = C ∧ mapGet c2.items p.1 = none ∧ mapGet c2.items q.1 ≠ none) := by
  have hw0 : WF (New ⟨C, NO_EXPIRE, policy⟩ : LruCache V) := WF_New _
  have hcap0 : (New ⟨C, NO_EXPIRE, policy⟩ : LruCache V).capacity = (C : Int) :=
    New_capacity _
  have hexp0 : (New ⟨C, NO_EXPIRE, policy⟩ : LruCache V).expire = NO_EXPIRE := by
    unfold New
    split <;> rfl
  have hit0 : (New ⟨C, NO_EXPIRE, policy⟩ : LruCache V).items = [] := New_items _
  have hen0 : entries (New ⟨C, NO_EXPIRE, policy⟩ : LruCache V) = [] := New_entries _
  have base : ∀ l : List (String × V × Int), (l.map Prod.fst).Nodup →
      ∃ c1, run (New ⟨C, NO_EXPIRE, policy⟩)
          (l.map (fun p => Call.Set p.1 p.2.1 p.2.2)) = some c1 ∧ WF c1 ∧
        entries c1 = (l.reverse.map (fun p => (⟨p.2.1, NO_EXPIRE, p.1⟩ : Node V))).take C ∧
        c1.capacity = (C : Int) ∧ c1.expire = NO_EXPIRE := by
    intro l hl
    obtain ⟨c1, hr, hw, he, hc, hx, _⟩ := run_sets C hC l _ hw0 hcap0 hexp0
      (by rw [hit0]; simp) hl (by intro p _; rw [hit0]; rfl)
    rw [hen0, List.append_nil] at he
    exact ⟨c1, hr, hw, he, hc, hx⟩
  constructor
  · obtain ⟨c, hr, hw, he, _, _⟩ := base kvs hnd
    obtain ⟨m, hm, hmn, _⟩ := GetAll_spec hw now
    have hkeys : (entries c).map Node.key = ((kvs.map Prod.fst).reverse).take C := by
      rw [he, List.map_take, List.map_map, ← List.map_reverse]
      rfl
    have hcount : Count c = min kvs.length C := by
      rw [← hw.entries_length, he]
      simp [Nat.min_comm]
    have hmem : ∀ k, k ∈ m.map Prod.fst ↔ k ∈ (entries c).map Node.key := by
      intro k
      rw [GetAll_keys hw now m hm k]
      constructor
      · rintro ⟨n, hs, _⟩
        obtain ⟨h1, h2⟩ := (hw.stored_eq_some k n).1 hs
        exact h2 ▸ List.mem_map_of_mem Node.key h1
      · intro hk
        obtain ⟨n, hn, hnk⟩ := List.mem_map.1 hk
        refine ⟨n, (hw.stored_eq_some k n).2 ⟨hn, hnk⟩, Or.inl ?_⟩
        rw [he] at hn
        obtain ⟨p, _, hp⟩ := List.mem_map.1 (List.mem_of_mem_take hn)
        rw [← hp]
    refine ⟨c, m, hr, hcount, hkeys, ?_, hm, ?_, ?_⟩
    · rw [headNode_eq, he]
      obtain ⟨C1, rfl⟩ : ∃ C1, C = C1 + 1 := ⟨C - 1, by omega⟩
      cases kvs.reverse with
      | nil => rfl
      | cons p L => rfl
    · have hperm : (m.map Prod.fst).Perm ((entries c).map Node.key) :=
        (List.perm_ext_iff_of_nodup hmn hw.entries_keys).2 hmem
      have := hperm.length_eq
      rw [List.length_map, List.length_map, hw.entries_length, hcount] at this
      exact this
    · intro k
      rw [hmem k, hkeys]
  · intro pre p mid q post hsplit hmid
    have hnd1 : ((pre ++ p :: mid ++ [q]).map Prod.fst).Nodup := by
      have hsub : (pre ++ p :: mid ++ [q]).Sublist kvs := by
        rw [hsplit]
        have h1 : (p :: mid ++ [q]).Sublist (p :: mid ++ q :: post) := by
          simp
        simp
      exact hnd.sublist (hsub.map _)
    have hnd2 : ((pre ++ p :: mid).map Prod.fst).Nodup := by
      have hsub : (pre ++ p :: mid).Sublist (pre ++ p :: mid ++ [q]) := by
        have h1 : (p :: mid).Sublist (p :: mid ++ [q]) := by
          simp
        simp
      exact hnd1.sublist (hsub.map _)
    obtain ⟨c1, hr1, hw1, he1, hc1, hx1⟩ := base (pre ++ p :: mid) hnd2
    have he1b : entries c1 =
        List.map (fun r : String × V × Int => (⟨r.2.1, NO_EXPIRE, r.1⟩ : Node V)) mid.reverse ++
          [⟨p.2.1, NO_EXPIRE, p.1⟩] := by
      rw [he1]
      simp only [List.reverse_append, List.reverse_cons, List.map_append, List.map_cons,
        List.map_nil, List.append_assoc]
      rw [← List.append_assoc, List.take_append_eq_append_take]
      have hl : (List.map (fun r : String × V × Int => (⟨r.2.1, NO_EXPIRE, r.1⟩ : Node V))
          mid.reverse ++ [(⟨p.2.1, NO_EXPIRE, p.1⟩ : Node V)]).length = C := by
        simp [hmid]
      rw [List.take_of_length_le (le_of_eq hl), hl]
      simp
    have hcount1 : Count c1 = C := by
      rw [← hw1.entries_length, he1b]
      simp [hmid]
    have htail : tailNode c1 = Except.ok ⟨p.2.1, NO_EXPIRE, p.1⟩ := by
      rw [tailNode_eq, he1b]
      simp
    have hq : mapGet c1.items q.1 = none := by
      rw [hw1.not_stored_entries]
      intro n hn hnq
      rw [he1] at hn
      obtain ⟨r, hr, hrn⟩ := List.mem_map.1 (List.mem_of_mem_take hn)
      have hr2 : r ∈ pre ++ p :: mid := List.mem_reverse.1 hr
      have hrq : r.1 = q.1 := by
        rw [← hnq, ← hrn]
      rw [List.map_append, List.nodup_append] at hnd1
      refine hnd1.2.2 (List.mem_map_of_mem Prod.fst hr2) ?_
      rw [hrq]
      simp
    have hfull : c1.capacity = (c1.items.length : Int) := by
      rw [hc1]
      exact_mod_cast hcount1.symm
    have hpos : 1 ≤ c1.capacity := by
      rw [hc1]
      exact_mod_cast hC
    obtain ⟨c2, t, hs, ht, hw2, _, he2, hl2, hgone⟩ :=
      set_evict_gone hw1 q.1 q.2.1 NO_EXPIRE hq hfull hpos
    rw [htail] at ht
    simp only [Except.ok.injEq] at ht
    subst ht
    have hstep : step c1 (Call.Set q.1 q.2.1 q.2.2) = some c2 := by
      simp only [step, Set, hx1]
      simpa using hs
    refine ⟨c1, c2, _, hr1, hcount1, htail, rfl, ?_, ?_, hgone, ?_⟩
    · rw [List.map_append, run_append, hr1]
      simp only [Option.some_bind, List.map_cons, List.map_nil, run_cons, hstep]
      rfl
    · show c2.items.length = C
      rw [hl2]
      exact hcount1
    · intro hq2
      have := (hw2.not_stored_entries q.1).1 hq2
      rw [he2] at this
      exact this _ (List.mem_cons_self _ _) rfl

theorem C14_sets_of_distinct_keys_witness :
    1 ≤ 5 ∧ (sevenKeys.map Prod.fst).Nodup ∧
      (∃ c m, run (New ⟨(5 : Nat), NO_EXPIRE, 1⟩)
          (sevenKeys.map (fun r => Call.Set r.1 r.2.1 r.2.2)) = some c ∧
        Count c = min sevenKeys.length 5 ∧
        (entries c).map Node.key = ((sevenKeys.map Prod.fst).reverse).take 5 ∧
        headNode c = (match sevenKeys.reverse with
          | [] => Except.error "heapCache :: head node is not available"
          | p :: _ => Except.ok ⟨p.2.1, NO_EXPIRE, p.1⟩) ∧
        GetAll c 0 = some m ∧ m.length = min sevenKeys.length 5 ∧
        (∀ k, k ∈ m.map Prod.fst ↔ k ∈ ((sevenKeys.map Prod.fst).reverse).take 5)) ∧
      (run (New ⟨(5 : Nat), NO_EXPIRE, 1⟩)
          (sevenKeys.map (fun r => Call.Set r.1 r.2.1 r.2.2))).map
        (fun c => (Count c, (entries c).map Node.key)) =
          some (5, ["key7", "key6", "key5", "key4", "key3"]) :=
  ⟨by decide, by decide,
    (C14_sets_of_distinct_keys 5 (by decide) 1 sevenKeys (by decide) 0).1, by decide⟩

/-- C15: in a state with consistent indices, `GetAll()` and `Count()` leave the state
(contents and recency order) as it is, and so does a `Get` that returns an error
(`Cache not found` or `Cache expired`); in particular an entry whose expiry has
elapsed is reported expired by `Get` and skipped by `GetAll` and yet stays stored, in
its position, and is counted by `Count()`. -/
theorem C15_reads_leave_state {c : LruCache V} (h : WF c) (now : Int) :
    step c (Call.GetAll now) = some c ∧ step c Call.Count = some c ∧
      (∀ k c1 msg, Get c k now = some (c1, Except.error msg) →
        c1 = c ∧ (msg = "heapCache :: Cache not found" ∨ msg = "heapCache :: Cache expired")) ∧
      (∀ k n, stored c k = some n → n.expireAt ≠ NO_EXPIRE → n.expireAt ≤ now →
        Get c k now = some (c, Except.error "heapCache :: Cache expired") ∧
        (∃ m, GetAll c now = some m ∧ k ∉ m.map Prod.fst) ∧
        k ∈ c.items.map Prod.fst ∧ 1 ≤ Count c) := by
  obtain ⟨m, hm, _, _⟩ := GetAll_spec h now
  refine ⟨by simp [step, hm], rfl, ?_, ?_⟩
  · intro k c1 msg hg
    cases hs : stored c k with
    | none =>
      rw [Get_absent c k now ((h.stored_eq_none k).1 hs)] at hg
      simp only [Option.some.injEq, Prod.mk.injEq, Except.error.injEq] at hg
      exact ⟨hg.1.symm, Or.inl hg.2.symm⟩
    | some n =>
      by_cases hx : n.expireAt = NO_EXPIRE ∨ n.expireAt > now
      · obtain ⟨c2, h2, _⟩ := Get_live h k now n hs hx
        rw [hg] at h2
        simp at h2
      · have h1 : n.expireAt ≠ NO_EXPIRE := fun h1 => hx (Or.inl h1)
        have h2 : n.expireAt ≤ now := not_lt.1 (fun h2 => hx (Or.inr h2))
        rw [Get_elapsed h k now n hs h1 h2] at hg
        simp only [Option.some.injEq, Prod.mk.injEq, Except.error.injEq] at hg
        exact ⟨hg.1.symm, Or.inr hg.2.symm⟩
  · intro k n hs h1 h2
    have hk : k ∈ c.items.map Prod.fst := by
      rw [mem_keys_iff_mapGet]
      intro hk
      rw [(h.stored_eq_none k).2 hk] at hs
      exact Option.noConfusion hs
    refine ⟨Get_elapsed h k now n hs h1 h2, ⟨m, hm, ?_⟩, hk, ?_⟩
    · rw [GetAll_keys h now m hm k]
      rintro ⟨n1, hs1, hx⟩
      rw [hs] at hs1
      cases hs1
      rcases hx with h3 | h3
      · exact h1 h3
      · exact absurd h2 (not_le.2 h3)
    · have := List.length_pos_of_mem hk
      simpa [Count] using this

theorem C15_reads_leave_state_witness :
    WF fullCache ∧ step fullCache (Call.GetAll 7) = some fullCache ∧
      step fullCache Call.Count = some fullCache ∧
      Get fullCache "a" 7 = some (fullCache, Except.error "heapCache :: Cache expired") :=
  ⟨fullCache_WF, (C15_reads_leave_state fullCache_WF 7).1,
    (C15_reads_leave_state fullCache_WF 7).2.1,
    ((C15_reads_leave_state fullCache_WF 7).2.2.2 "a" ⟨10, 5, "a"⟩ rfl (by decide)
      (by decide)).1⟩

/-- C16 as stated fails: `New` applied to a configuration whose fields are all zero
builds a cache with capacity 0 and default expiry 0, not 100 and 1200, and the first
`Set` on it faults. -/
theorem C16_zero_config_counterexample :
    (New ⟨0, 0, 0⟩ : LruCache String).capacity = 0 ∧
      (New ⟨0, 0, 0⟩ : LruCache String).expire = 0 ∧
      DEFAULT_CAPACITY = 100 ∧ DEFAULT_EXPIRE = 1200 ∧
      Set (New ⟨0, 0, 0⟩ : LruCache String) "key1" "value1" 0 = none :=
  ⟨rfl, rfl, rfl, rfl, rfl⟩

/-- C16 (amended): `New` copies `Capacity` and `Expire` from the configuration as
given; on a cache built with `Capacity = DEFAULT_CAPACITY` and
`Expire = DEFAULT_EXPIRE` the capacity is 100, the default expiry is 1200 seconds, a
first `Set` succeeds and `Count()` becomes 1. -/
theorem C16_new_copies_config (conf : Config) (policy : Int) (k : String) (v : V)
    (now : Int) :
    (New conf : LruCache V).capacity = conf.Capacity ∧
      (New conf : LruCache V).expire = conf.Expire ∧
      ∃ c, Set (New ⟨DEFAULT_CAPACITY, DEFAULT_EXPIRE, policy⟩ : LruCache V) k v now = some c ∧
        c.capacity = 100 ∧ c.expire = 1200 ∧ Count c = 1 := by
  refine ⟨New_capacity conf, ?_, ?_⟩
  · unfold New
    split <;> rfl
  · have hw : WF (New ⟨DEFAULT_CAPACITY, DEFAULT_EXPIRE, policy⟩ : LruCache V) := WF_New _
    have hc : (New ⟨DEFAULT_CAPACITY, DEFAULT_EXPIRE, policy⟩ : LruCache V).capacity = 100 :=
      New_capacity _
    have hx : (New ⟨DEFAULT_CAPACITY, DEFAULT_EXPIRE, policy⟩ : LruCache V).expire = 1200 := by
      unfold New
      split <;> rfl
    have hi : (New ⟨DEFAULT_CAPACITY, DEFAULT_EXPIRE, policy⟩ : LruCache V).items = [] :=
      New_items _
    obtain ⟨c, hs, _, _, hl, hcc, hxx⟩ := set_insert hw k v
      (if (New ⟨DEFAULT_CAPACITY, DEFAULT_EXPIRE, policy⟩ : LruCache V).expire ≠ NO_EXPIRE
        then wrapInt64 (now + (New ⟨DEFAULT_CAPACITY, DEFAULT_EXPIRE, policy⟩ :
          LruCache V).expire) else NO_EXPIRE)
      (by rw [hi]; rfl) (by rw [hc, hi]; simp)
    refine ⟨c, hs, hcc.trans hc, hxx.trans hx, ?_⟩
    show c.items.length = 1
    rw [hl, hi]
    rfl

/-- C17 fails on the code: `Get` acquires the shared lock (`RLock`), and a successful
`Get` reorders the queue: on the sample state `Get("a")` moves `a` in front of `b`. -/
theorem C17_get_reorders_under_read_lock :
    lockOf Method.Get = LockMode.RLock ∧ lockOf Method.set = LockMode.Lock ∧
      lockOf Method.Delete = LockMode.Lock ∧ lockOf Method.DeleteExpired = LockMode.Lock ∧
      (Get fullCache "a" 3).map (fun r => (r.2, entries r.1)) =
        some (Except.ok 10, [⟨10, 5, "a"⟩, ⟨20, -1, "b"⟩]) ∧
      entries fullCache = [⟨20, -1, "b"⟩, ⟨10, 5, "a"⟩] :=
  ⟨rfl, rfl, rfl, rfl, rfl, rfl⟩

/-- C18: for a cache built by `New` with capacity at least 1, after every call of every
sequence of public calls the two indices agree: the keys of the Hash Index are the
keys carried by the elements of the Ordered Index, no key occurs twice in the Ordered
Index (nor in the Hash Index), every map entry for a key `k` points to the queue
element whose node has key `k`, every queue element is the target of the map entry
of its key, and `Count() = len(items)` is the length of the queue. -/
theorem C18_indices_agree (conf : Config) (hC : 1 ≤ conf.Capacity) (calls : List (Call V))
    (i : Nat) :
    ∃ c, run (New conf) (calls.take i) = some c ∧
      (∀ k, k ∈ c.items.map Prod.fst ↔ k ∈ c.queue.map (fun e => e.Value.key)) ∧
      (c.queue.map (fun e => e.Value.key)).Nodup ∧ (c.items.map Prod.fst).Nodup ∧
      (∀ k a, mapGet c.items k = some a →
        ∃ e, elementAt c.queue a = some e ∧ e ∈ c.queue ∧ e.Value.key = k) ∧
      (∀ e ∈ c.queue, mapGet c.items e.Value.key = some e.addr) ∧
      Count c = c.items.length ∧ c.items.length = c.queue.length := by
  have hw0 : WF (New conf : LruCache V) := WF_New conf
  have hcap : (New conf : LruCache V).capacity = conf.Capacity := New_capacity conf
  obtain ⟨c, hr⟩ := run_total (calls.take i) hw0 (hcap ▸ hC)
  have hw : WF c := (run_some _ hw0 hr).1
  refine ⟨c, hr, ?_, hw.queue_keys, hw.keys, ?_, hw.mem_items, rfl, hw.length_eq⟩
  · intro k
    rw [mem_keys_iff_mapGet]
    constructor
    · intro hk
      cases hka : mapGet c.items k with
      | none => exact absurd hka hk
      | some a =>
        obtain ⟨e, _, he, hek, _⟩ := hw.lookup k a hka
        exact List.mem_map.2 ⟨e, he, hek⟩
    · intro hk
      obtain ⟨e, he, hek⟩ := List.mem_map.1 hk
      rw [← hek, hw.mem_items e he]
      exact Option.noConfusion
  · intro k a hka
    obtain ⟨e, hat, he, hek, _⟩ := hw.lookup k a hka
    exact ⟨e, hat, he, hek⟩

theorem C18_indices_agree_witness :
    (1 : Int) ≤ 2 ∧
      ∃ c, run (New ⟨2, 1200, 1⟩)
          ([Call.Set "a" 1 0, Call.SetWithExpire "b" 2 (-1) 3, Call.Get "a" 5,
            Call.Set "c" 3 7, Call.DeleteExpired 5000, Call.Delete "b"].take 5) = some c ∧
        (∀ k, k ∈ c.items.map Prod.fst ↔ k ∈ c.queue.map (fun e => e.Value.key)) ∧
        (c.queue.map (fun e => e.Value.key)).Nodup ∧ (c.items.map Prod.fst).Nodup ∧
        (∀ k a, mapGet c.items k = some a →
          ∃ e, elementAt c.queue a = some e ∧ e ∈ c.queue ∧ e.Value.key = k) ∧
        (∀ e ∈ c.queue, mapGet c.items e.Value.key = some e.addr) ∧
        Count c = c.items.length ∧ c.items.length = c.queue.length :=
  ⟨by decide, C18_indices_agree ⟨2, 1200, 1⟩ (by decide) _ 5⟩

/-- C19: for a cache built by `New` with capacity at least 1, every sequence of public
calls runs without a fault, and in the state it reaches: when the cache is full the
queue has a back element whose key is in `items`; every element pointer found in
`items` leads to a queue element; `Get` returns a value or one of its two errors,
`GetAll` returns a map, `DeleteExpired` returns its message or one of its two errors,
`Delete` returns nil or `Cache not found`, and `Set` / `SetWithExpire` return, also
when the cache is full. -/
theorem C19_no_fault (conf : Config) (hC : 1 ≤ conf.Capacity) (calls : List (Call V)) :
    ∃ c, run (New conf) calls = some c ∧
      (c.capacity = (c.items.length : Int) →
        ∃ t, Back c.queue = some t ∧ mapGet c.items t.Value.key = some t.addr) ∧
      (∀ k a, mapGet c.items k = some a → ∃ e, elementAt c.queue a = some e) ∧
      (∀ k now, ∃ c1 r, Get c k now = some (c1, r) ∧
        (r = Except.error "heapCache :: Cache not found" ∨
          r = Except.error "heapCache :: Cache expired" ∨ ∃ v, r = Except.ok v)) ∧
      (∀ now, ∃ m, GetAll c now = some m) ∧
      (∀ now, ∃ c1 r, DeleteExpired c now = some (c1, r) ∧
        (r = Except.error "heapCache :: No items available" ∨
          r = Except.error "heapCache :: No expired items are found" ∨
          ∃ n : Nat, r = Except.ok
            ("heapCache :: " ++ toString n ++ " item(s) are deleted"))) ∧
      (∀ k, (Delete c k).2 = none ∨ (Delete c k).2 = some "heapCache :: Cache not found") ∧
      (∀ k v now, ∃ c1, Set c k v now = some c1) ∧
      (∀ k v ttl now, ∃ c1, SetWithExpire c k v ttl now = some c1) ∧
      (∀ call, ∃ c1, step c call = some c1) := by
  have hw0 : WF (New conf : LruCache V) := WF_New conf
  have hcap : (New conf : LruCache V).capacity = conf.Capacity := New_capacity conf
  obtain ⟨c, hr⟩ := run_total calls hw0 (hcap ▸ hC)
  obtain ⟨hw, hc, _, _⟩ := run_some _ hw0 hr
  have hpos : 1 ≤ c.capacity := by
    rw [hc, hcap]
    exact hC
  refine ⟨c, hr, ?_, ?_, ?_, ?_, ?_, ?_, fun k v now => set_total hw hpos k v _,
    fun k v ttl now => set_total hw hpos k v _, fun call => step_total hw hpos call⟩
  · intro hfull
    cases hb : Back c.queue with
    | none =>
      exfalso
      unfold Back at hb
      rw [List.getLast?_eq_none_iff] at hb
      have := hw.length_eq
      rw [hb] at this
      simp only [List.length_nil] at this
      rw [this] at hfull
      omega
    | some t =>
      have ht : t ∈ c.queue := by
        rw [Back_eq_some c.queue t hb]
        simp
      exact ⟨t, rfl, hw.mem_items t ht⟩
  · intro k a hka
    obtain ⟨e, hat, _⟩ := hw.lookup k a hka
    exact ⟨e, hat⟩
  · intro k now
    cases hs : stored c k with
    | none =>
      exact ⟨c, _, Get_absent c k now ((hw.stored_eq_none k).1 hs), Or.inl rfl⟩
    | some n =>
      by_cases hx : n.expireAt = NO_EXPIRE ∨ n.expireAt > now
      · obtain ⟨c1, hg, _⟩ := Get_live hw k now n hs hx
        exact ⟨c1, _, hg, Or.inr (Or.inr ⟨_, rfl⟩)⟩
      · have h1 : n.expireAt ≠ NO_EXPIRE := fun h1 => hx (Or.inl h1)
        have h2 : n.expireAt ≤ now := not_lt.1 (fun h2 => hx (Or.inr h2))
        exact ⟨c, _, Get_elapsed hw k now n hs h1 h2, Or.inr (Or.inl rfl)⟩
  · intro now
    obtain ⟨m, hm, _⟩ := GetAll_spec hw now
    exact ⟨m, hm⟩
  · intro now
    obtain ⟨c1, r, hd, _, _, _, _, hres⟩ := DeleteExpired_spec hw now
    refine ⟨c1, r, hd, ?_⟩
    rw [hres]
    split
    · exact Or.inl rfl
    · split
      · exact Or.inr (Or.inr ⟨_, rfl⟩)
      · exact Or.inr (Or.inl rfl)
  · intro k
    cases hk : mapGet c.items k with
    | none =>
      rw [Delete_absent c k hk]
      exact Or.inr rfl
    | some a =>
      left
      simp [Delete, hk]

theorem C19_no_fault_witness :
    (1 : Int) ≤ 1 ∧
      ∃ c, run (New ⟨1, -1, 1⟩) [Call.Set "a" 1 0, Call.Set "b" 2 0] = some c ∧
        (c.capacity = (c.items.length : Int) →
          ∃ t, Back c.queue = some t ∧ mapGet c.items t.Value.key = some t.addr) ∧
        (∀ k a, mapGet c.items k = some a → ∃ e, elementAt c.queue a = some e) :=
  ⟨by decide,
    let ⟨c, h1, h2, h3, _⟩ :=
      C19_no_fault ⟨1, -1, 1⟩ (by decide) [Call.Set "a" 1 0, Call.Set "b" 2 0]
    ⟨c, h1, h2, h3⟩⟩

/-- C20 as stated fails: at `now = 5` the call `SetWithExpire(k, v, -6)`, whose `ttl`
is not `NO_EXPIRE`, stores the expiry `5 + (-6) = -1`, which is the `NO_EXPIRE`
sentinel; the entry never expires, and `Get` at time `100 ≥ now + ttl` returns the
value. -/
theorem C20_sentinel_collision_counterexample :
    (0 : Int) ≤ 5 ∧ (-6 : Int) ≠ NO_EXPIRE ∧ (5 : Int) + (-6) ≤ 100 ∧
      SetWithExpire (New ⟨5, -1, 1⟩ : LruCache String) "k" "v" (-6) 5 =
        some ⟨[⟨0, ⟨"v", NO_EXPIRE, "k"⟩⟩], [("k", 0)], -1, 5, 1⟩ ∧
      (Get (⟨[⟨0, ⟨"v", NO_EXPIRE, "k"⟩⟩], [("k", 0)], -1, 5, 1⟩ : LruCache String)
        "k" 100).map Prod.snd = some (Except.ok "v") :=
  ⟨by decide, by decide, by decide, rfl, rfl⟩

/-- C20 (amended): for `int64` values `now ≥ 0` and `ttl ≠ NO_EXPIRE` with
`now + ttl ≠ -1`, the entry stored by `SetWithExpire(k, v, ttl)` (and by `Set`, which is
`SetWithExpire` with the engine default as `ttl`) carries an expiry different from the
`NO_EXPIRE` sentinel, equal to `now + ttl` when that fits 64 bits; as long as the entry
is stored and not overwritten, `Get` reports it expired at every time `t ≥ now + ttl`. -/
theorem C20_expiry_is_not_sentinel {c : LruCache V} (h : WF c) (hcap : 1 ≤ c.capacity)
    (k : String) (v : V) (ttl now : Int) (hnow : 0 ≤ now) (hnow2 : now < 2 ^ 63)
    (httl : ttl ≠ NO_EXPIRE) (hlo : -2 ^ 63 ≤ ttl) (hhi : ttl < 2 ^ 63)
    (hne : now + ttl ≠ -1) :
    Set c k v now = SetWithExpire c k v c.expire now ∧
      ∃ c1 x, SetWithExpire c k v ttl now = some c1 ∧ stored c1 k = some ⟨v, x, k⟩ ∧
        x ≠ NO_EXPIRE ∧ (now + ttl < 2 ^ 63 → x = now + ttl) ∧
        ∀ (calls : List (Call V)) (c2 : LruCache V),
          (∀ call ∈ calls, written call k = none) → run c1 calls = some c2 →
          mapGet c2.items k ≠ none →
          ∀ t : Int, now + ttl ≤ t →
            Get c2 k t = some (c2, Except.error "heapCache :: Cache expired") := by
  refine ⟨rfl, ?_⟩
  obtain ⟨c1, hs⟩ := set_total h hcap k v (wrapInt64 (now + ttl))
  have hx1 : wrapInt64 (now + ttl) ≠ NO_EXPIRE := by
    unfold wrapInt64 NO_EXPIRE
    omega
  have hx2 : now + ttl < 2 ^ 63 → wrapInt64 (now + ttl) = now + ttl := by
    intro hfit
    exact wrapInt64_of_fits _ (by omega) hfit
  have hx3 : wrapInt64 (now + ttl) ≤ now + ttl := by
    unfold wrapInt64
    omega
  refine ⟨c1, wrapInt64 (now + ttl), ?_, (set_some h k v _ hs).2.2.2.1, hx1, hx2, ?_⟩
  · show set c k v (if ttl ≠ NO_EXPIRE then wrapInt64 (now + ttl) else NO_EXPIRE) = some c1
    rw [if_pos httl]
    exact hs
  · intro calls c2 hc hr hk t ht
    obtain ⟨hw2, hst⟩ := set_then_run h k v _ hs calls hc hr hk
    exact Get_elapsed hw2 k t _ hst hx1 (le_trans hx3 ht)

theorem C20_expiry_is_not_sentinel_witness :
    WF fullCache ∧ (1 : Int) ≤ fullCache.capacity ∧ (0 : Int) ≤ 100 ∧ (100 : Int) < 2 ^ 63 ∧
      (-6 : Int) ≠ NO_EXPIRE ∧ -(2 : Int) ^ 63 ≤ -6 ∧ (-6 : Int) < 2 ^ 63 ∧
      (100 : Int) + (-6) ≠ -1 ∧
      ∃ c1 x, SetWithExpire fullCache "k" 7 (-6) 100 = some c1 ∧
        stored c1 "k" = some ⟨7, x, "k"⟩ ∧ x ≠ NO_EXPIRE ∧
        ((100 : Int) + (-6) < 2 ^ 63 → x = 100 + (-6)) ∧
        ∀ (calls : List (Call Nat)) (c2 : LruCache Nat),
          (∀ call ∈ calls, written call "k" = none) → run c1 calls = some c2 →
          mapGet c2.items "k" ≠ none →
          ∀ t : Int, 100 + (-6) ≤ t →
            Get c2 "k" t = some (c2, Except.error "heapCache :: Cache expired") :=
  ⟨fullCache_WF, by decide, by decide, by decide, by decide, by decide, by decide, by decide,
    (C20_expiry_is_not_sentinel fullCache_WF (by decide) "k" 7 (-6) 100 (by decide)
      (by decide) (by decide) (by decide) (by decide) (by decide)).2⟩

end claims

end Cache
